import Mathlib

/-!
Verification development for the proto authz rule extractor
(`protoc-gen-go-authz/parser.go`).

The extractor recovers authorization rules from raw proto source text
(regex location of the `rpc ... {` header and the `option (proto.v1.authz) = {`
header, brace-depth scanning, comment stripping, and field regexes for
`permissions: [...]` and `no_auth_required: (true|false)`) and from the
compiled HTTP-binding metadata (reflective enumeration of the binding
message's fields).

Text is modelled as `List Char`.  Each Go regex used by the source is a
specific, deterministic pattern (every starred character class is followed by
a character outside the class, and the one lazy group is followed by a single
literal), so each one is embedded as an explicit matcher with exactly the
regex's semantics; `findFirst` supplies the leftmost-match search that
`FindStringIndex` / `FindStringSubmatch` / `ReplaceAllString` perform.
-/

deriving instance DecidableEq for Except

namespace Authz

/-- RE2 `\s` character class: `[\t\n\f\r ]`. -/
def isRegexSpace (c : Char) : Bool :=
  c = ' ' || c = '\t' || c = '\n' || c = '\x0c' || c = '\r'

/-- ASCII white space as trimmed by `strings.TrimSpace`. -/
def isTrimSpace (c : Char) : Bool :=
  c = ' ' || c = '\t' || c = '\n' || c = '\x0b' || c = '\x0c' || c = '\r'

/-- Match a literal sequence of characters at the head of the text,
returning the rest on success. -/
def matchLit : List Char → List Char → Option (List Char)
  | [], s => some s
  | _ :: _, [] => none
  | p :: ps, c :: cs => if c = p then matchLit ps cs else none

/-- Greedy `X*` for a character class `p` whose follow set is disjoint from
`p`: consume the maximal run of `p`-characters. -/
def matchStar (p : Char → Bool) : List Char → List Char
  | [] => []
  | c :: cs => if p c then matchStar p cs else c :: cs

/-- Greedy `X+`: at least one `p`-character, then the maximal run. -/
def matchPlus (p : Char → Bool) (s : List Char) : Option (List Char) :=
  match s with
  | [] => none
  | c :: cs => if p c then some (matchStar p cs) else none

/-- Greedy `[^t]*` followed by the literal `t`: consume through the first
occurrence of `t`, failing if there is none. -/
def matchUpThroughChar (t : Char) : List Char → Option (List Char)
  | [] => none
  | c :: cs => if c = t then some cs else matchUpThroughChar t cs

/-- Lazy `(.*?)` followed by the literal `t` (RE2 `.` excludes `'\n'`):
capture the shortest newline-free run up to the first `t`. -/
def lazyCaptureUpTo (t : Char) : List Char → Option (List Char × List Char)
  | [] => none
  | c :: cs =>
    if c = t then some ([], cs)
    else if c = '\n' then none
    else (lazyCaptureUpTo t cs).map (fun r => (c :: r.1, r.2))

/-- Leftmost-match search: try the matcher at every suffix, leftmost first,
exactly as Go's `FindStringIndex`/`FindStringSubmatch` do. -/
def findFirst {α : Type} (m : List Char → Option α) : List Char → Option α
  | [] => m []
  | c :: rest =>
    match m (c :: rest) with
    | some a => some a
    | none => findFirst m rest

/-- Strip the maximal run of `p`-characters from the front
(`strings.TrimLeft`). -/
def trimLeft (p : Char → Bool) : List Char → List Char
  | [] => []
  | c :: cs => if p c then trimLeft p cs else c :: cs

/-- Strip the maximal run of `p`-characters from the back
(`strings.TrimRight`). -/
def trimRight (p : Char → Bool) : List Char → List Char
  | [] => []
  | c :: cs =>
    match trimRight p cs with
    | [] => if p c then [] else [c]
    | d :: ds => c :: d :: ds

/-- Strip `p`-characters from both ends (`strings.Trim`). -/
def trimBy (p : Char → Bool) (s : List Char) : List Char :=
  trimRight p (trimLeft p s)

/-- `strings.TrimSpace`. -/
def trimSpace (s : List Char) : List Char := trimBy isTrimSpace s

/-- `strings.Trim(s, string(q))` for a one-character cutset. -/
def trimQuote (q : Char) (s : List Char) : List Char := trimBy (fun c => c = q) s

/-- `strings.Split(s, ",")`. -/
def splitOnComma : List Char → List (List Char)
  | [] => [[]]
  | c :: cs =>
    if c = ',' then [] :: splitOnComma cs
    else
      match splitOnComma cs with
      | [] => [[c]]
      | g :: gs => (c :: g) :: gs

/-- Rest of the text after a match of
`rpc\s+NAME\s*\([^)]*\)\s*returns\s*\([^)]*\)\s*\{` starting at the head of
`s` (the returned suffix starts just after the opening brace). -/
def matchRpcAt (methodName : List Char) (s : List Char) : Option (List Char) := do
  let s ← matchLit ("rpc".toList) s
  let s ← matchPlus isRegexSpace s
  let s ← matchLit methodName s
  let s := matchStar isRegexSpace s
  let s ← matchLit ['('] s
  let s ← matchUpThroughChar ')' s
  let s := matchStar isRegexSpace s
  let s ← matchLit ("returns".toList) s
  let s := matchStar isRegexSpace s
  let s ← matchLit ['('] s
  let s ← matchUpThroughChar ')' s
  let s := matchStar isRegexSpace s
  matchLit ['{'] s

/-- Rest of the text after a match of
`option\s*\(\s*proto\.v1\.authz\s*\)\s*=\s*\{` starting at the head of `s`
(the returned suffix starts just after the opening brace). -/
def matchAuthzAt (s : List Char) : Option (List Char) := do
  let s ← matchLit ("option".toList) s
  let s := matchStar isRegexSpace s
  let s ← matchLit ['('] s
  let s := matchStar isRegexSpace s
  let s ← matchLit ("proto.v1.authz".toList) s
  let s := matchStar isRegexSpace s
  let s ← matchLit [')'] s
  let s := matchStar isRegexSpace s
  let s ← matchLit ['='] s
  let s := matchStar isRegexSpace s
  matchLit ['{'] s

/-- Capture group of a match of `permissions\s*:\s*\[(.*?)\]` starting at the
head of `s`. -/
def matchPermissionsAt (s : List Char) : Option (List Char) := do
  let s ← matchLit ("permissions".toList) s
  let s := matchStar isRegexSpace s
  let s ← matchLit [':'] s
  let s := matchStar isRegexSpace s
  let s ← matchLit ['['] s
  let r ← lazyCaptureUpTo ']' s
  pure r.1

/-- Result of a match of `no_auth_required\s*:\s*(true|false)` starting at
the head of `s`: whether the captured literal equals `true`. -/
def matchNoAuthAt (s : List Char) : Option Bool := do
  let s ← matchLit ("no_auth_required".toList) s
  let s := matchStar isRegexSpace s
  let s ← matchLit [':'] s
  let s := matchStar isRegexSpace s
  match matchLit ("true".toList) s with
  | some _ => pure true
  | none =>
    match matchLit ("false".toList) s with
    | some _ => pure false
    | none => none

/-- Scanner state for the line-comment replace-all: either at a line start
(or inside its leading white-space run, which is pending output unless a
`//` turns the run into part of a match), inside a matched comment, or in
the middle of an ordinary line. -/
inductive SLCMode where
  | lineStart (pending : List Char)
  | comment
  | normal
deriving DecidableEq

/-- `ReplaceAllString` of the multiline pattern `(?m)^\s*//.*$` with the
empty string, as a one-pass scanner.  A match can only start at a line
start; its `\s*` is greedy and may span line breaks (so blank lines directly
above a comment line are removed with it); its `.*$` ends just before the
next newline, which therefore survives. -/
def slcAux : SLCMode → List Char → List Char
  | .lineStart pending, [] => pending
  | .lineStart pending, [c] => pending ++ [c]
  | .lineStart pending, c :: d :: cs =>
    if isRegexSpace c then slcAux (.lineStart (pending ++ [c])) (d :: cs)
    else if c = '/' ∧ d = '/' then slcAux .comment cs
    else pending ++ c :: slcAux .normal (d :: cs)
  | .comment, [] => []
  | .comment, c :: cs =>
    if c = '\n' then c :: slcAux (.lineStart []) cs else slcAux .comment cs
  | .normal, [] => []
  | .normal, c :: cs =>
    if c = '\n' then c :: slcAux (.lineStart []) cs else c :: slcAux .normal cs

/-- Removal of line comments from a span (`ReplaceAllString` of
`(?m)^\s*//.*$` with `""`); the start of the span counts as a line start. -/
def stripLineComments (s : List Char) : List Char := slcAux (.lineStart []) s

/-- `ReplaceAllString` of the non-greedy block-comment pattern
`/\*[\s\S]*?\*/` with the empty string, as a one-pass scanner.  At each
`/*`, the text up to the first following `*/` is a match and is dropped; a
`/*` with no following `*/` matches nothing, and then nothing later can
match either, so the consumed candidate (carried in the accumulator) is
emitted unchanged at the end of the text. -/
def sbcAux : Option (List Char) → List Char → List Char
  | none, [] => []
  | none, [c] => [c]
  | none, c :: d :: cs =>
    if c = '/' ∧ d = '*' then sbcAux (some ['/', '*']) cs
    else c :: sbcAux none (d :: cs)
  | some pending, [] => pending
  | some pending, [c] => pending ++ [c]
  | some pending, c :: d :: cs =>
    if c = '*' ∧ d = '/' then sbcAux none cs
    else sbcAux (some (pending ++ [c])) (d :: cs)

/-- Removal of block comments from a span. -/
def stripBlockComments (s : List Char) : List Char := sbcAux none s

/-- Error kinds of the extractor (§7 of the design). -/
inductive PErr where
  | methodNotFound
  | unmatchedBraces
  | authzOptionsNotFound
  | noHTTPAnnot
  | noHTTPMethodFound
  | fileReadFailure
  | permissionsParseFailure
deriving DecidableEq, Repr

/-- The cleaning applied to each comma-separated element: trim white space,
then double quotes, then single quotes. -/
def cleanPerm (perm : List Char) : List Char :=
  trimQuote '\'' (trimQuote '"' (trimSpace perm))

/-- `parsePermissionsString`: trim the bracket interior; when blank the list
is empty; otherwise split on commas and clean each element, dropping
elements that become empty.  The error result is structurally always `ok`,
as in the source. -/
def parsePermissionsString (permissionsStr : List Char) :
    Except PErr (List (List Char)) :=
  if trimSpace permissionsStr = [] then .ok []
  else
    .ok ((splitOnComma (trimSpace permissionsStr)).foldl
      (fun acc perm => if cleanPerm perm ≠ [] then acc ++ [cleanPerm perm] else acc) [])

/-- Lines 170–199 of `parser.go`: strip line comments, then block comments,
from an extracted authz block body, then run the `permissions` and
`no_auth_required` field regexes over the cleaned text. -/
def extractFields (authzBody : List Char) : Except PErr (List (List Char) × Bool) :=
  match findFirst matchPermissionsAt (stripBlockComments (stripLineComments authzBody)) with
  | none =>
    .ok ([],
      match findFirst matchNoAuthAt (stripBlockComments (stripLineComments authzBody)) with
      | none => false
      | some b => b)
  | some interior =>
    match parsePermissionsString interior with
    | .error _ => .error .permissionsParseFailure
    | .ok permissions =>
      .ok (permissions,
        match findFirst matchNoAuthAt (stripBlockComments (stripLineComments authzBody)) with
        | none => false
        | some b => b)

/-- The brace scan of `parser.go` (lines 121–132 and 151–162): starting
just after an already-matched opening brace with the given depth, consume
one character at a time, adjusting the depth on braces, and return the
number of characters consumed when the depth reaches zero; `none` when the
text ends first. -/
def scanToClose : List Char → Nat → Option Nat
  | _, 0 => some 0
  | [], _ + 1 => none
  | c :: rest, d + 1 =>
    (scanToClose rest (if c = '{' then d + 2 else if c = '}' then d else d + 1)).map (· + 1)

/-- `extractAuthzFromProtoFile`, given the file content: locate the method's
`rpc` header, scan its brace-bounded body, locate the authz option header in
that body, scan its brace-bounded block, and parse the fields of the block. -/
def extractAuthzFromContent (content : List Char) (methodName : List Char) :
    Except PErr (List (List Char) × Bool) :=
  match findFirst (matchRpcAt methodName) content with
  | none => .error .methodNotFound
  | some afterRpcBrace =>
    match scanToClose afterRpcBrace 1 with
    | none => .error .unmatchedBraces
    | some stop =>
      match findFirst matchAuthzAt (afterRpcBrace.take (stop - 1)) with
      | none => .error .authzOptionsNotFound
      | some afterAuthzBrace =>
        match scanToClose afterAuthzBrace 1 with
        | none => .error .unmatchedBraces
        | some stop2 => extractFields (afterAuthzBrace.take (stop2 - 1))

/-- One field of the compiled HTTP-binding message as seen through
reflection: its declared name and, when the field is set on the message, its
string value (`value = none` models `reflectMsg.Has(field) = false`). -/
structure HField where
  name : List Char
  value : Option (List Char)
deriving DecidableEq, Repr

/-- `extractHTTPInfoFromRule`: walk the binding message's fields in
descriptor order; skip unset fields; on the first set field named `get`,
`post`, `put`, `delete` or `patch`, return its value and the uppercase verb;
fail with `noHTTPMethodFound` when no verb field is set. -/
def extractHTTPInfoFromRule : List HField → Except PErr (List Char × List Char)
  | [] => .error .noHTTPMethodFound
  | f :: rest =>
    match f.value with
    | none => extractHTTPInfoFromRule rest
    | some path =>
      if f.name = ("get".toList) then .ok (path, ("GET".toList))
      else if f.name = ("post".toList) then .ok (path, ("POST".toList))
      else if f.name = ("put".toList) then .ok (path, ("PUT".toList))
      else if f.name = ("delete".toList) then .ok (path, ("DELETE".toList))
      else if f.name = ("patch".toList) then .ok (path, ("PATCH".toList))
      else extractHTTPInfoFromRule rest

/-- One RPC method as handed to the parser: its declared name, the raw text
of its originating proto file (`none` models a file-read failure), and the
fields of its HTTP-binding extension (`none` models an absent
`google.api.http` annotation). -/
structure MethodDecl where
  name : List Char
  fileContent : Option (List Char)
  httpRule : Option (List HField)
deriving DecidableEq, Repr

/-- `extractHTTPInfo`: fail with `noHTTPAnnot` when the HTTP-binding
extension is absent, otherwise resolve the verb and path from its fields. -/
def extractHTTPInfo (m : MethodDecl) : Except PErr (List Char × List Char) :=
  match m.httpRule with
  | none => .error .noHTTPAnnot
  | some fields => extractHTTPInfoFromRule fields

/-- `extractAuthzOptions` / `extractFromProtoSource`: read the method's
proto file and extract the authz fields from its text. -/
def extractAuthzOptions (m : MethodDecl) : Except PErr (List (List Char) × Bool) :=
  match m.fileContent with
  | none => .error .fileReadFailure
  | some content => extractAuthzFromContent content m.name

/-- The assembled per-method rule. -/
structure AuthzRule where
  HTTPPath : List Char
  HTTPMethod : List Char
  Permissions : List (List Char)
  NoAuthRequired : Bool
deriving DecidableEq, Repr

/-- `parseMethod`: extract the authz fields, then the HTTP info; any failure
aborts the method with that error, and only full success yields a rule. -/
def parseMethod (m : MethodDecl) : Except PErr AuthzRule :=
  match extractAuthzOptions m with
  | .error e => .error e
  | .ok fields =>
    match extractHTTPInfo m with
    | .error e => .error e
    | .ok info => .ok ⟨info.1, info.2, fields.1, fields.2⟩

/-- One service: its methods in declaration order. -/
structure ServiceDecl where
  methods : List MethodDecl
deriving DecidableEq, Repr

/-- One file: its services in declaration order. -/
structure FileDecl where
  services : List ServiceDecl
deriving DecidableEq, Repr

/-- `parseService`: collect the rules of the methods that parse, in
declaration order, silently skipping every method whose parse fails. -/
def parseService (service : ServiceDecl) : List AuthzRule :=
  service.methods.foldl
    (fun rules m =>
      match parseMethod m with
      | .error _ => rules
      | .ok r => rules ++ [r]) []

/-- `parseFile`: concatenate the rules of all services in declaration
order. -/
def parseFile (file : FileDecl) : List AuthzRule :=
  file.services.foldl (fun rules s => rules ++ parseService s) []

/-- Specification-side depth function: fold over a prefix of the scanned
text, incrementing on `{` and decrementing on `}`, from a start depth. -/
def braceDepth (s : List Char) (d : Nat) : Nat :=
  s.foldl (fun acc c => if c = '{' then acc + 1 else if c = '}' then acc - 1 else acc) d

/-- Specification-side verb lookup (§4.6): the fixed ordered list of
(field name, uppercase verb) pairs the resolver recognises. -/
def verbOfName (n : List Char) : Option (List Char) :=
  if n = ("get".toList) then some ("GET".toList)
  else if n = ("post".toList) then some ("POST".toList)
  else if n = ("put".toList) then some ("PUT".toList)
  else if n = ("delete".toList) then some ("DELETE".toList)
  else if n = ("patch".toList) then some ("PATCH".toList)
  else none

/-- The successful value of an `Except`, when there is one. -/
def okValue {ε α : Type} : Except ε α → Option α
  | .ok a => some a
  | .error _ => none

/-- Join pieces of text with single commas (the inverse view of
`splitOnComma`). -/
def joinComma : List (List Char) → List Char
  | [] => []
  | [p] => p
  | p :: ps => p ++ ',' :: joinComma ps

/-- A character that none of the field parsers treat specially: not a line
break (the lazy bracket group cannot cross one), not a single or double
quote (trimmed), not a comma (the split separator), not a closing bracket
(ends the lazy group), and not a slash or asterisk (comment delimiters). -/
def safeChar (c : Char) : Bool :=
  !(c = '\n' || c = '"' || c = '\'' || c = ',' || c = ']' || c = '/' || c = '*')

/-- One declared element of a `permissions` list as it appears in source
text: optional white-space padding on either side, the element string, and
the quote style (double or single quotes). -/
structure PermEntry where
  pre : List Char
  str : List Char
  post : List Char
  dq : Bool
deriving DecidableEq, Repr

/-- The quote character of a quote style. -/
def qchar (dq : Bool) : Char := if dq then '"' else '\''

/-- The source text of one declared permissions element. -/
def renderEntry (en : PermEntry) : List Char :=
  en.pre ++ qchar en.dq :: (en.str ++ [qchar en.dq]) ++ en.post

/-- Specification-side rendering of a `permissions` declaration: the
`permissions` keyword, white space around the colon and before the opening
bracket, and the comma-separated quoted elements between the brackets. -/
def renderPermsDecl (w1 w2 : List Char) (ens : List PermEntry) : List Char :=
  "permissions".toList ++ w1 ++ ':' :: w2 ++ '[' :: joinComma (ens.map renderEntry) ++ [']']

/-- Specification-side serialization of a permissions list in the field
parsers' own format: double-quoted elements separated by comma-space. -/
def renderPermList : List (List Char) → List Char
  | [] => []
  | [p] => '"' :: (p ++ ['"'])
  | p :: ps => '"' :: (p ++ ['"']) ++ ',' :: ' ' :: renderPermList ps

/-- Specification-side serialization of an authz block body from a
`(permissions, noAuthRequired)` pair, in the field parsers' own format. -/
def renderAuthzBlock (perms : List (List Char)) (noAuth : Bool) : List Char :=
  "no_auth_required: ".toList ++ (if noAuth then "true".toList else "false".toList) ++
    '\n' :: "permissions: [".toList ++ renderPermList perms ++ [']']

/-- The kept value of one split piece: its cleaning when non-blank. -/
def cleanPerm? (p : List Char) : Option (List Char) :=
  if cleanPerm p = [] then none else some (cleanPerm p)

/-- A double-quoted element as serialized by `renderPermList`. -/
def quotedPiece (p : List Char) : List Char := '"' :: (p ++ ['"'])

/-- The comma-split pieces of `renderPermList`: the first element plain, the
later ones carrying the space that follows each comma. -/
def c7pieces : List (List Char) → List (List Char)
  | [] => []
  | p :: ps => quotedPiece p :: ps.map (fun q => ' ' :: quotedPiece q)

/-- Trim leading white space off the first piece of a split. -/
def trimFirstPiece : List (List Char) → List (List Char)
  | [] => []
  | p :: ps => trimLeft isTrimSpace p :: ps

/-- Trim trailing white space off the last piece of a split. -/
def trimLastPiece : List (List Char) → List (List Char)
  | [] => []
  | [p] => [trimRight isTrimSpace p]
  | p :: ps => p :: trimLastPiece ps

end Authz

namespace Authz

/-! ### Basic facts about the assembly loops -/

theorem parseService_foldl (ms : List MethodDecl) : ∀ acc : List AuthzRule,
    ms.foldl
      (fun rules m =>
        match parseMethod m with
        | .error _ => rules
        | .ok r => rules ++ [r]) acc =
      acc ++ ms.filterMap (fun m => okValue (parseMethod m)) := by
  induction ms with
  | nil => intro acc; simp
  | cons m ms ih =>
    intro acc
    simp only [List.foldl, List.filterMap_cons]
    cases h : parseMethod m with
    | error e => simp only [h, okValue, ih]
    | ok r => simp only [h, okValue, ih (acc ++ [r]), List.append_assoc, List.singleton_append]

theorem parseService_eq (service : ServiceDecl) :
    parseService service = service.methods.filterMap (fun m => okValue (parseMethod m)) := by
  unfold parseService
  rw [parseService_foldl]
  simp

theorem parseFile_foldl (ss : List ServiceDecl) : ∀ acc : List AuthzRule,
    ss.foldl (fun rules s => rules ++ parseService s) acc =
      acc ++ (ss.map parseService).flatten := by
  induction ss with
  | nil => intro acc; simp
  | cons s ss ih => intro acc; simp [List.foldl, ih (acc ++ parseService s)]

theorem parseFile_eq (file : FileDecl) :
    parseFile file = (file.services.map parseService).flatten := by
  unfold parseFile
  rw [parseFile_foldl]
  simp

/-! ### Brace-scanner characterisation -/

theorem scanToClose_zero (s : List Char) : scanToClose s 0 = some 0 := by
  cases s <;> rfl

theorem scanToClose_cons (c : Char) (rest : List Char) (d : Nat) :
    scanToClose (c :: rest) (d + 1) =
      (scanToClose rest (if c = '{' then d + 2 else if c = '}' then d else d + 1)).map (· + 1) :=
  rfl

theorem braceDepth_nil (d : Nat) : braceDepth [] d = d := rfl

theorem braceDepth_cons_succ (c : Char) (t : List Char) (d : Nat) :
    braceDepth (c :: t) (d + 1) =
      braceDepth t (if c = '{' then d + 2 else if c = '}' then d else d + 1) := by
  show braceDepth t (if c = '{' then d + 1 + 1 else if c = '}' then d + 1 - 1 else d + 1) = _
  congr 1

theorem scan_some_spec : ∀ (s : List Char) (d n : Nat),
    scanToClose s (d + 1) = some n →
    n ≤ s.length ∧ braceDepth (s.take n) (d + 1) = 0 ∧
      ∀ k < n, 0 < braceDepth (s.take k) (d + 1) := by
  intro s
  induction s with
  | nil =>
    intro d n h
    simp [scanToClose] at h
  | cons c rest ih =>
    intro d n h
    rw [scanToClose_cons] at h
    rcases Option.map_eq_some'.mp h with ⟨n', hscan, hn⟩
    subst hn
    by_cases hD : (if c = '{' then d + 2 else if c = '}' then d else d + 1) = 0
    · have hc : c = '}' ∧ d = 0 := by
        by_cases h1 : c = '{' <;> by_cases h2 : c = '}' <;> simp [h1, h2] at hD <;> simp_all
      rcases hc with ⟨hc, hd⟩
      subst hc; subst hd
      rw [hD, scanToClose_zero] at hscan
      injection hscan with hn'
      subst hn'
      refine ⟨by simp, ?_, ?_⟩
      · simp [List.take_succ_cons, braceDepth_cons_succ, braceDepth_nil]
      · intro k hk
        have hk0 : k = 0 := by omega
        subst hk0
        simp [braceDepth_nil]
    · rcases Nat.exists_eq_succ_of_ne_zero hD with ⟨e, he⟩
      rw [he] at hscan
      rcases ih e n' hscan with ⟨hle, hz, hpos⟩
      refine ⟨by simpa using Nat.succ_le_succ hle, ?_, ?_⟩
      · rw [List.take_succ_cons, braceDepth_cons_succ, he]
        exact hz
      · intro k hk
        cases k with
        | zero => simp [braceDepth_nil]
        | succ j =>
          have hj : j < n' := Nat.lt_of_succ_lt_succ hk
          rw [List.take_succ_cons, braceDepth_cons_succ, he]
          exact hpos j hj

theorem scan_none_spec : ∀ (s : List Char) (d : Nat),
    scanToClose s (d + 1) = none ↔
      ∀ k ≤ s.length, 0 < braceDepth (s.take k) (d + 1) := by
  intro s
  induction s with
  | nil =>
    intro d
    constructor
    · intro _ k hk
      have hk0 : k = 0 := by simpa using hk
      subst hk0
      simp [braceDepth_nil]
    · intro _
      rfl
  | cons c rest ih =>
    intro d
    rw [scanToClose_cons]
    by_cases hD : (if c = '{' then d + 2 else if c = '}' then d else d + 1) = 0
    · have hc : c = '}' ∧ d = 0 := by
        by_cases h1 : c = '{' <;> by_cases h2 : c = '}' <;> simp [h1, h2] at hD <;> simp_all
      rcases hc with ⟨hc, hd⟩
      subst hc; subst hd
      rw [hD, scanToClose_zero]
      constructor
      · intro h; cases h
      · intro h
        have h1 := h 1 (by simp)
        rw [List.take_succ_cons, List.take_zero, braceDepth_cons_succ, hD, braceDepth_nil] at h1
        exact absurd h1 (by simp)
    · rcases Nat.exists_eq_succ_of_ne_zero hD with ⟨e, he⟩
      rw [he]
      constructor
      · intro h k hk
        have h' := (ih e).mp (by simpa using h)
        cases k with
        | zero => simp [braceDepth_nil]
        | succ j =>
          have hj : j ≤ rest.length := Nat.le_of_succ_le_succ hk
          rw [List.take_succ_cons, braceDepth_cons_succ, he]
          exact h' j hj
      · intro h
        have h' : ∀ k ≤ rest.length, 0 < braceDepth (rest.take k) (e + 1) := by
          intro k hk
          have hh := h (k + 1) (by simpa using Nat.succ_le_succ hk)
          rw [List.take_succ_cons, braceDepth_cons_succ, he] at hh
          exact hh
        simpa using (ih e).mpr h'

/-- C3: the brace-span scanner, started just after an already-matched
opening brace at depth 1, returns the offset just past the character that
first brings the depth (incremented on `{`, decremented on `}`) to 0; it
returns nothing exactly when the text ends while the depth is still
positive, in which case the extractor reports the unmatched-braces error
instead of a span. -/
theorem c3_braceScanner :
    (∀ (s : List Char) (n : Nat), scanToClose s 1 = some n →
      n ≤ s.length ∧ braceDepth (s.take n) 1 = 0 ∧
        ∀ k < n, 0 < braceDepth (s.take k) 1) ∧
    (∀ s : List Char, scanToClose s 1 = none ↔
      ∀ k ≤ s.length, 0 < braceDepth (s.take k) 1) ∧
    (∀ (content name rest : List Char),
      findFirst (matchRpcAt name) content = some rest →
      scanToClose rest 1 = none →
      extractAuthzFromContent content name = .error .unmatchedBraces) := by
  refine ⟨fun s n h => scan_some_spec s 0 n h, fun s => scan_none_spec s 0, ?_⟩
  intro content name rest h1 h2
  simp [extractAuthzFromContent, h1, h2]

/-- Witness for C3 at concrete inputs: on `ab{}}x` started at depth 1 the
scan stops just past offset 5, where the depth first returns to 0; a method
whose body's braces never close yields the unmatched-braces error. -/
theorem c3_braceScanner_witness :
    braceDepth (("ab\x7b\x7d\x7dx".toList).take 5) 1 = 0 ∧
    (0 < braceDepth (("ab\x7b\x7d\x7dx".toList).take 4) 1) ∧
    extractAuthzFromContent ("rpc M(A) returns (B) \x7b x".toList) ("M".toList) =
      .error .unmatchedBraces := by
  refine ⟨(c3_braceScanner.1 _ 5 (by decide)).2.1,
    (c3_braceScanner.1 _ 5 (by decide)).2.2 4 (by decide),
    c3_braceScanner.2.2 _ _ (" x".toList) (by decide) (by decide)⟩

/-! ### HTTP annotation resolution -/

theorem extractHTTPInfoFromRule_skip (pre : List HField)
    (h : ∀ f ∈ pre, f.value = none ∨ verbOfName f.name = none) :
    ∀ rest, extractHTTPInfoFromRule (pre ++ rest) = extractHTTPInfoFromRule rest := by
  induction pre with
  | nil => intro rest; rfl
  | cons f ps ih =>
    intro rest
    have hf := h f (by simp)
    have hps : ∀ f ∈ ps, f.value = none ∨ verbOfName f.name = none := by
      intro g hg; exact h g (by simp [hg])
    rcases hf with hv | hn
    · simp only [List.cons_append, extractHTTPInfoFromRule, hv]
      exact ih hps rest
    · cases hval : f.value with
      | none =>
        simp only [List.cons_append, extractHTTPInfoFromRule, hval]
        exact ih hps rest
      | some p =>
        unfold verbOfName at hn
        simp only [List.cons_append, extractHTTPInfoFromRule, hval]
        split_ifs at hn ⊢ <;> first | (exact ih hps rest) | simp_all

theorem extractHTTPInfoFromRule_head (f : HField) (rest : List HField)
    (p v : List Char) (hval : f.value = some p) (hverb : verbOfName f.name = some v) :
    extractHTTPInfoFromRule (f :: rest) = .ok (p, v) := by
  unfold verbOfName at hverb
  simp only [extractHTTPInfoFromRule, hval]
  split_ifs at hverb ⊢ <;> simp_all

/-- C4: HTTP resolution fails with `noHTTPAnnot` when the binding
extension is absent; when present, the resolver walks the binding message's
fields in descriptor order and returns, for the first *set* field whose name
is one of `get`/`post`/`put`/`delete`/`patch`, its string value and the
uppercase verb; when no verb field is set it fails with
`noHTTPMethodFound`. -/
theorem c4_httpResolution :
    (∀ m : MethodDecl, m.httpRule = none →
      extractHTTPInfo m = .error .noHTTPAnnot) ∧
    (∀ (m : MethodDecl) (pre post : List HField) (f : HField) (p v : List Char),
      m.httpRule = some (pre ++ f :: post) →
      (∀ f' ∈ pre, f'.value = none ∨ verbOfName f'.name = none) →
      f.value = some p → verbOfName f.name = some v →
      extractHTTPInfo m = .ok (p, v)) ∧
    (∀ (m : MethodDecl) (fields : List HField),
      m.httpRule = some fields →
      (∀ f ∈ fields, f.value = none ∨ verbOfName f.name = none) →
      extractHTTPInfo m = .error .noHTTPMethodFound) := by
  refine ⟨?_, ?_, ?_⟩
  · intro m h
    simp [extractHTTPInfo, h]
  · intro m pre post f p v hrule hpre hval hverb
    simp only [extractHTTPInfo, hrule]
    rw [extractHTTPInfoFromRule_skip pre hpre (f :: post)]
    exact extractHTTPInfoFromRule_head f post p v hval hverb
  · intro m fields hrule hall
    simp only [extractHTTPInfo, hrule]
    have h := extractHTTPInfoFromRule_skip fields hall []
    simpa using h

/-- Witness for C4 at concrete inputs: a set non-verb field (`selector`) and
an unset verb field (`get`) are both skipped, and the first set verb field
(`put`) supplies path and verb; an absent extension yields
`noHTTPAnnot`. -/
theorem c4_httpResolution_witness :
    extractHTTPInfo
      ⟨("M".toList), none,
        some [⟨("selector".toList), some ("/s".toList)⟩,
              ⟨("get".toList), none⟩,
              ⟨("put".toList), some ("/p".toList)⟩,
              ⟨("get".toList), some ("/g".toList)⟩]⟩ =
      .ok (("/p".toList), ("PUT".toList)) ∧
    extractHTTPInfo ⟨("M".toList), none, none⟩ = .error .noHTTPAnnot := by
  constructor
  · exact c4_httpResolution.2.1 _
      [⟨("selector".toList), some ("/s".toList)⟩, ⟨("get".toList), none⟩]
      [⟨("get".toList), some ("/g".toList)⟩]
      ⟨("put".toList), some ("/p".toList)⟩ _ _ rfl (by decide) rfl (by decide)
  · exact c4_httpResolution.1 _ rfl

/-! ### Field defaults -/

theorem parsePermissionsString_isOk (s : List Char) :
    ∃ l, parsePermissionsString s = .ok l := by
  unfold parsePermissionsString
  split
  · exact ⟨[], rfl⟩
  · exact ⟨_, rfl⟩

/-- C6: absent fields take their defaults: when the cleaned authz body has
no `permissions` match the resulting permissions are `[]`, and when it has
no `no_auth_required` match the flag is `false`; in particular a block
declaring only `no_auth_required: true` yields `([], true)`. -/
theorem c6_fieldDefaults :
    (∀ body : List Char,
      findFirst matchPermissionsAt (stripBlockComments (stripLineComments body)) = none →
      (extractFields body).map Prod.fst = .ok []) ∧
    (∀ body : List Char,
      findFirst matchNoAuthAt (stripBlockComments (stripLineComments body)) = none →
      (extractFields body).map Prod.snd = .ok false) ∧
    extractFields ("no_auth_required: true".toList) = .ok ([], true) := by
  refine ⟨?_, ?_, by decide⟩
  · intro body h
    simp only [extractFields, h]
    rfl
  · intro body h
    cases hp : findFirst matchPermissionsAt (stripBlockComments (stripLineComments body)) with
    | none =>
      simp only [extractFields, hp, h]
      rfl
    | some interior =>
      rcases parsePermissionsString_isOk interior with ⟨l, hl⟩
      simp only [extractFields, hp, hl, h]
      rfl

/-- Witness for C6 at concrete inputs: a body with no `permissions` key
yields empty permissions, and a body with no `no_auth_required` key yields
`false`. -/
theorem c6_fieldDefaults_witness :
    (extractFields ("x: 1".toList)).map Prod.fst = .ok [] ∧
    (extractFields ("permissions: [\"a\"]".toList)).map Prod.snd = .ok false := by
  exact ⟨c6_fieldDefaults.1 _ (by decide), c6_fieldDefaults.2.1 _ (by decide)⟩

/-! ### Rule ordering -/

/-- C8: the produced rule sequence lists rules in declaration order of
services and, within each service, of methods, restricted to the methods
that yielded a rule; no deduplication is applied — two methods producing the
identical path and verb both appear. -/
theorem c8_ruleOrdering :
    (∀ file : FileDecl,
      parseFile file =
        (file.services.map
          (fun s => s.methods.filterMap (fun m => okValue (parseMethod m)))).flatten) ∧
    parseFile
      ⟨[⟨[⟨("M".toList),
           some ("rpc M(A) returns (B) \x7b option (proto.v1.authz) = \x7b no_auth_required: true \x7d \x7d".toList),
           some [⟨("get".toList), some ("/d".toList)⟩]⟩,
          ⟨("M".toList),
           some ("rpc M(A) returns (B) \x7b option (proto.v1.authz) = \x7b no_auth_required: true \x7d \x7d".toList),
           some [⟨("get".toList), some ("/d".toList)⟩]⟩]⟩]⟩ =
      [⟨("/d".toList), ("GET".toList), [], true⟩,
       ⟨("/d".toList), ("GET".toList), [], true⟩] := by
  constructor
  · intro file
    rw [parseFile_eq]
    congr 1
    exact List.map_congr_left (fun s _ => parseService_eq s)
  · decide

/-! ### The permissions parser never fails -/

theorem extractFields_no_parse_failure (body : List Char) :
    extractFields body ≠ .error .permissionsParseFailure := by
  cases hp : findFirst matchPermissionsAt (stripBlockComments (stripLineComments body)) with
  | none => simp [extractFields, hp]
  | some interior =>
    rcases parsePermissionsString_isOk interior with ⟨l, hl⟩
    simp [extractFields, hp, hl]

/-- C9: the permissions-list parser always succeeds (its error result is
structurally `ok` for every input), so the `permissionsParseFailure` branch
of the authz extractor is unreachable and permissions parsing alone can
never cause a method to be skipped. -/
theorem c9_permissionsParserTotal :
    (∀ s : List Char, ∃ l, parsePermissionsString s = .ok l) ∧
    (∀ body : List Char, extractFields body ≠ .error .permissionsParseFailure) ∧
    (∀ content name : List Char,
      extractAuthzFromContent content name ≠ .error .permissionsParseFailure) := by
  refine ⟨parsePermissionsString_isOk, extractFields_no_parse_failure, ?_⟩
  intro content name
  cases h1 : findFirst (matchRpcAt name) content with
  | none => simp [extractAuthzFromContent, h1]
  | some afterRpc =>
    cases h2 : scanToClose afterRpc 1 with
    | none => simp [extractAuthzFromContent, h1, h2]
    | some stop =>
      cases h3 : findFirst matchAuthzAt (afterRpc.take (stop - 1)) with
      | none => simp [extractAuthzFromContent, h1, h2, h3]
      | some afterAuthz =>
        cases h4 : scanToClose afterAuthz 1 with
        | none => simp [extractAuthzFromContent, h1, h2, h3, h4]
        | some stop2 =>
          simpa [extractAuthzFromContent, h1, h2, h3, h4] using
            extractFields_no_parse_failure (afterAuthz.take (stop2 - 1))

/-! ### Comments are not stripped before span extraction -/

/-- C10: comment stripping applies only to the already-extracted authz
block body.  A `}` inside a line comment is counted by the method-body brace
scan — with the comment present the authz option below it is lost, without
it the same method succeeds — and a commented-out authz header is still
matched as a live header and yields a rule. -/
theorem c10_commentsInfluenceSpans :
    extractAuthzFromContent
      ("rpc M(A) returns (B) \x7b // \x7d\noption (proto.v1.authz) = \x7b no_auth_required: true \x7d \x7d".toList)
      ("M".toList) = .error .authzOptionsNotFound ∧
    extractAuthzFromContent
      ("rpc M(A) returns (B) \x7b option (proto.v1.authz) = \x7b no_auth_required: true \x7d \x7d".toList)
      ("M".toList) = .ok ([], true) ∧
    extractAuthzFromContent
      ("rpc M(A) returns (B) \x7b // option (proto.v1.authz) = \x7b no_auth_required: true \x7d\n\x7d".toList)
      ("M".toList) = .ok ([], true) := by
  refine ⟨by decide, by decide, by decide⟩

/-! ### All-or-nothing assembly -/

/-- C1: Per-method assembly is all-or-nothing: if any step of `parseMethod`
fails for a method, no rule at all is emitted for it — the service's rule
list equals the one computed without that method — and every other method
contributes exactly its own rules, unaffected. -/
theorem c1_parseService_allOrNothing (pre post : List MethodDecl) (m : MethodDecl)
    (e : PErr) (h : parseMethod m = .error e) :
    parseService ⟨pre ++ m :: post⟩ = parseService ⟨pre ++ post⟩ ∧
    parseService ⟨pre ++ m :: post⟩ =
      pre.filterMap (fun m' => okValue (parseMethod m')) ++
        post.filterMap (fun m' => okValue (parseMethod m')) := by
  have h1 := parseService_eq ⟨pre ++ m :: post⟩
  have h2 := parseService_eq ⟨pre ++ post⟩
  simp only [List.filterMap_append, List.filterMap_cons, h, okValue] at h1 h2
  exact ⟨h1.trans h2.symm, h1⟩

/-- Witness for C1 at concrete inputs: a middle method that fails HTTP
resolution (no binding) is excluded and the two surrounding methods'
rules are exactly those computed without it. -/
theorem c1_parseService_allOrNothing_witness :
    parseMethod
      ⟨("B".toList),
       some ("rpc B(X) returns (Y) \x7b option (proto.v1.authz) = \x7b no_auth_required: true \x7d \x7d".toList),
       none⟩ = .error .noHTTPAnnot ∧
    parseService
      ⟨[⟨("A".toList),
         some ("rpc A(X) returns (Y) \x7b option (proto.v1.authz) = \x7b no_auth_required: true \x7d \x7d".toList),
         some [⟨("get".toList), some ("/a".toList)⟩]⟩,
        ⟨("B".toList),
         some ("rpc B(X) returns (Y) \x7b option (proto.v1.authz) = \x7b no_auth_required: true \x7d \x7d".toList),
         none⟩,
        ⟨("C".toList),
         some ("rpc C(X) returns (Y) \x7b option (proto.v1.authz) = \x7b permissions: [\"read:all\"] \x7d \x7d".toList),
         some [⟨("post".toList), some ("/c".toList)⟩]⟩]⟩ =
      parseService
        ⟨[⟨("A".toList),
           some ("rpc A(X) returns (Y) \x7b option (proto.v1.authz) = \x7b no_auth_required: true \x7d \x7d".toList),
           some [⟨("get".toList), some ("/a".toList)⟩]⟩,
          ⟨("C".toList),
           some ("rpc C(X) returns (Y) \x7b option (proto.v1.authz) = \x7b permissions: [\"read:all\"] \x7d \x7d".toList),
           some [⟨("post".toList), some ("/c".toList)⟩]⟩]⟩ := by
  refine ⟨by decide, ?_⟩
  exact (c1_parseService_allOrNothing
    [⟨("A".toList),
      some ("rpc A(X) returns (Y) \x7b option (proto.v1.authz) = \x7b no_auth_required: true \x7d \x7d".toList),
      some [⟨("get".toList), some ("/a".toList)⟩]⟩]
    [⟨("C".toList),
      some ("rpc C(X) returns (Y) \x7b option (proto.v1.authz) = \x7b permissions: [\"read:all\"] \x7d \x7d".toList),
      some [⟨("post".toList), some ("/c".toList)⟩]⟩]
    ⟨("B".toList),
     some ("rpc B(X) returns (Y) \x7b option (proto.v1.authz) = \x7b no_auth_required: true \x7d \x7d".toList),
     none⟩
    .noHTTPAnnot (by decide)).1

/-! ### Trimming lemmas -/

theorem trimLeft_cons_neg (p : Char → Bool) (c : Char) (cs : List Char) (h : ¬ p c) :
    trimLeft p (c :: cs) = c :: cs := by
  simp [trimLeft, h]

theorem trimLeft_cons_pos (p : Char → Bool) (c : Char) (cs : List Char) (h : p c) :
    trimLeft p (c :: cs) = trimLeft p cs := by
  simp [trimLeft, h]

theorem trimLeft_append_all (p : Char → Bool) (u v : List Char) (h : ∀ c ∈ u, p c) :
    trimLeft p (u ++ v) = trimLeft p v := by
  induction u with
  | nil => rfl
  | cons c cs ih =>
    have hc : p c = true := h c (by simp)
    simp only [List.cons_append, trimLeft, hc, if_pos]
    exact ih (fun c hc => h c (by simp [hc]))

theorem trimLeft_eq_nil_iff (p : Char → Bool) (s : List Char) :
    trimLeft p s = [] ↔ ∀ c ∈ s, p c := by
  induction s with
  | nil => simp [trimLeft]
  | cons c cs ih =>
    by_cases hc : p c
    · simp [trimLeft_cons_pos p c cs hc, ih, hc]
    · simp [trimLeft_cons_neg p c cs hc, hc]

theorem trimLeft_append_of_ne_nil (p : Char → Bool) (u v : List Char)
    (h : trimLeft p u ≠ []) : trimLeft p (u ++ v) = trimLeft p u ++ v := by
  induction u with
  | nil => exact absurd rfl h
  | cons c cs ih =>
    by_cases hc : p c
    · rw [trimLeft_cons_pos p c cs hc] at h
      rw [List.cons_append, trimLeft_cons_pos p c (cs ++ v) hc, trimLeft_cons_pos p c cs hc]
      exact ih h
    · rw [List.cons_append, trimLeft_cons_neg p c (cs ++ v) hc, trimLeft_cons_neg p c cs hc,
        List.cons_append]

theorem trimLeft_subset (p : Char → Bool) (s : List Char) :
    ∀ c ∈ trimLeft p s, c ∈ s := by
  induction s with
  | nil => simp [trimLeft]
  | cons c cs ih =>
    by_cases hc : p c
    · rw [trimLeft_cons_pos p _ _ hc]
      intro x hx
      exact List.mem_cons_of_mem c (ih x hx)
    · rw [trimLeft_cons_neg p _ _ hc]
      intro x hx
      exact hx

theorem trimLeft_idem (p : Char → Bool) (s : List Char) :
    trimLeft p (trimLeft p s) = trimLeft p s := by
  induction s with
  | nil => rfl
  | cons c cs ih =>
    by_cases hc : p c
    · rw [trimLeft_cons_pos p _ _ hc]; exact ih
    · rw [trimLeft_cons_neg p _ _ hc, trimLeft_cons_neg p _ _ hc]

theorem trimRight_cons_eq (p : Char → Bool) (c : Char) (cs : List Char) :
    trimRight p (c :: cs) =
      match trimRight p cs with
      | [] => if p c then [] else [c]
      | d :: ds => c :: d :: ds := rfl

theorem trimRight_cons_of_ne_nil (p : Char → Bool) (c : Char) (cs : List Char)
    (h : trimRight p cs ≠ []) : trimRight p (c :: cs) = c :: trimRight p cs := by
  rw [trimRight_cons_eq]
  cases hr : trimRight p cs with
  | nil => exact absurd hr h
  | cons d ds => rfl

theorem trimRight_eq_nil_iff (p : Char → Bool) (s : List Char) :
    trimRight p s = [] ↔ ∀ c ∈ s, p c := by
  induction s with
  | nil => simp [trimRight]
  | cons c cs ih =>
    rw [trimRight_cons_eq]
    cases hr : trimRight p cs with
    | nil =>
      have hcs : ∀ x ∈ cs, p x := ih.mp hr
      by_cases hc : p c
      · rw [if_pos hc]
        constructor
        · intro _ x hx
          rcases List.mem_cons.mp hx with rfl | hx
          · exact hc
          · exact hcs x hx
        · intro _; rfl
      · rw [if_neg hc]
        constructor
        · intro h; cases h
        · intro h
          exact absurd (h c (by simp)) hc
    | cons d ds =>
      have hcs : ¬ ∀ x ∈ cs, p x := by
        rw [← ih, hr]; simp
      constructor
      · intro h; cases h
      · intro h
        exact absurd (fun x hx => h x (by simp [hx])) hcs

theorem trimRight_append_all (p : Char → Bool) (u v : List Char) (h : ∀ c ∈ v, p c) :
    trimRight p (u ++ v) = trimRight p u := by
  induction u with
  | nil => simpa using (trimRight_eq_nil_iff p v).mpr h
  | cons c cs ih =>
    rw [List.cons_append, trimRight_cons_eq, trimRight_cons_eq, ih]

theorem trimRight_append_of_ne_nil (p : Char → Bool) (u v : List Char)
    (h : trimRight p v ≠ []) : trimRight p (u ++ v) = u ++ trimRight p v := by
  induction u with
  | nil => rfl
  | cons c cs ih =>
    rw [List.cons_append, trimRight_cons_of_ne_nil p _ _ (by rw [ih]; simp [h]), ih,
      List.cons_append]

theorem trimRight_subset (p : Char → Bool) (s : List Char) :
    ∀ c ∈ trimRight p s, c ∈ s := by
  induction s with
  | nil => simp [trimRight]
  | cons c cs ih =>
    rw [trimRight_cons_eq]
    cases hr : trimRight p cs with
    | nil =>
      by_cases hc : p c <;> simp [hc]
    | cons d ds =>
      intro x hx
      rcases List.mem_cons.mp hx with hx | hx
      · simp [hx]
      · exact List.mem_cons_of_mem c (ih x (by rw [hr]; exact hx))

theorem trimRight_of_all_neg (p : Char → Bool) (s : List Char) (h : ∀ c ∈ s, ¬ p c) :
    trimRight p s = s := by
  induction s with
  | nil => rfl
  | cons c cs ih =>
    have hcs := ih (fun x hx => h x (by simp [hx]))
    cases cs with
    | nil => simp [trimRight, h c (by simp)]
    | cons d ds =>
      rw [trimRight_cons_of_ne_nil p _ _ (by rw [hcs]; simp), hcs]

theorem trimLeft_of_all_neg (p : Char → Bool) (s : List Char) (h : ∀ c ∈ s, ¬ p c) :
    trimLeft p s = s := by
  cases s with
  | nil => rfl
  | cons c cs => exact trimLeft_cons_neg p c cs (h c (by simp))

theorem trimRight_idem (p : Char → Bool) (s : List Char) :
    trimRight p (trimRight p s) = trimRight p s := by
  induction s with
  | nil => rfl
  | cons c cs ih =>
    cases hr : trimRight p cs with
    | nil =>
      rw [trimRight_cons_eq, hr]
      by_cases hc : p c <;> simp [hc, trimRight]
    | cons d ds =>
      have h1 : trimRight p (c :: cs) = c :: trimRight p cs :=
        trimRight_cons_of_ne_nil p c cs (by rw [hr]; simp)
      rw [h1, trimRight_cons_of_ne_nil p c _ (by rw [ih, hr]; simp), ih]

theorem trimLeft_trimRight_comm (p : Char → Bool) (s : List Char) :
    trimLeft p (trimRight p s) = trimRight p (trimLeft p s) := by
  induction s with
  | nil => rfl
  | cons c cs ih =>
    by_cases hc : p c
    · cases hr : trimRight p cs with
      | nil =>
        have hcs : ∀ x ∈ cs, p x := (trimRight_eq_nil_iff p cs).mp hr
        have h1 : trimLeft p cs = [] := (trimLeft_eq_nil_iff p cs).mpr hcs
        rw [trimRight_cons_eq, hr, if_pos hc, trimLeft_cons_pos p c cs hc, h1]
        rfl
      | cons d ds =>
        rw [trimRight_cons_of_ne_nil p c cs (by rw [hr]; simp),
          trimLeft_cons_pos p c (trimRight p cs) hc, trimLeft_cons_pos p c cs hc, ih]
    · cases hr : trimRight p cs with
      | nil =>
        rw [trimRight_cons_eq, hr, if_neg hc, trimLeft_cons_neg p c [] hc,
          trimLeft_cons_neg p c cs hc, trimRight_cons_eq, hr, if_neg hc]
      | cons d ds =>
        rw [trimRight_cons_of_ne_nil p c cs (by rw [hr]; simp),
          trimLeft_cons_neg p c (trimRight p cs) hc, trimLeft_cons_neg p c cs hc,
          trimRight_cons_of_ne_nil p c cs (by rw [hr]; simp)]

theorem trimSpace_trimLeft (s : List Char) :
    trimSpace (trimLeft isTrimSpace s) = trimSpace s := by
  unfold trimSpace trimBy
  rw [trimLeft_idem]

theorem trimSpace_trimRight (s : List Char) :
    trimSpace (trimRight isTrimSpace s) = trimSpace s := by
  unfold trimSpace trimBy
  rw [trimLeft_trimRight_comm, trimRight_idem]

theorem trimSpace_eq_nil_iff (s : List Char) :
    trimSpace s = [] ↔ ∀ c ∈ s, isTrimSpace c := by
  unfold trimSpace trimBy
  induction s with
  | nil => simp [trimLeft, trimRight]
  | cons c cs ih =>
    by_cases hc : isTrimSpace c
    · rw [trimLeft_cons_pos _ _ _ hc]
      simp only [List.mem_cons]
      constructor
      · intro h x hx
        rcases hx with rfl | hx
        · exact hc
        · exact (ih.mp h) x hx
      · intro h
        exact ih.mpr (fun x hx => h x (Or.inr hx))
    · rw [trimLeft_cons_neg _ _ _ hc, trimRight_eq_nil_iff]

/-! ### Splitting and joining on commas -/

theorem joinComma_cons₂ (p : List Char) (ps : List (List Char)) (h : ps ≠ []) :
    joinComma (p :: ps) = p ++ ',' :: joinComma ps := by
  cases ps with
  | nil => exact absurd rfl h
  | cons q qs => rfl

theorem splitOnComma_cons_neg (c : Char) (cs g : List Char) (gs : List (List Char))
    (h : ¬ c = ',') (hs : splitOnComma cs = g :: gs) :
    splitOnComma (c :: cs) = (c :: g) :: gs := by
  unfold splitOnComma
  rw [if_neg h, hs]

theorem splitOnComma_no_comma (a : List Char) (h : ∀ c ∈ a, c ≠ ',') :
    splitOnComma a = [a] := by
  induction a with
  | nil => rfl
  | cons c cs ih =>
    have hc : ¬ (c = ',') := h c (by simp)
    exact splitOnComma_cons_neg c cs cs [] hc (ih (fun x hx => h x (by simp [hx])))

theorem splitOnComma_append_comma (a t : List Char) (h : ∀ c ∈ a, c ≠ ',') :
    splitOnComma (a ++ ',' :: t) = a :: splitOnComma t := by
  induction a with
  | nil => simp [splitOnComma]
  | cons c cs ih =>
    have hc : ¬ (c = ',') := h c (by simp)
    rw [List.cons_append]
    exact splitOnComma_cons_neg c _ cs (splitOnComma t) hc
      (ih (fun x hx => h x (by simp [hx])))

theorem splitOnComma_joinComma (pieces : List (List Char)) (hne : pieces ≠ [])
    (h : ∀ p ∈ pieces, ∀ c ∈ p, c ≠ ',') :
    splitOnComma (joinComma pieces) = pieces := by
  induction pieces with
  | nil => exact absurd rfl hne
  | cons p ps ih =>
    cases ps with
    | nil => exact splitOnComma_no_comma p (h p (by simp))
    | cons q qs =>
      rw [joinComma_cons₂ p (q :: qs) (by simp),
        splitOnComma_append_comma p _ (h p (by simp)),
        ih (by simp) (fun x hx => h x (by simp [hx]))]

theorem joinComma_forall (P : Char → Prop) (pieces : List (List Char))
    (h : ∀ c ∈ joinComma pieces, P c) : ∀ p ∈ pieces, ∀ c ∈ p, P c := by
  induction pieces with
  | nil => simp
  | cons p ps ih =>
    cases ps with
    | nil =>
      intro x hx c hc
      have hx' : x = p := by simpa using hx
      subst hx'
      exact h c hc
    | cons q qs =>
      rw [joinComma_cons₂ p (q :: qs) (by simp)] at h
      intro x hx c hc
      rcases List.mem_cons.mp hx with rfl | hx
      · exact h c (by simp [hc])
      · exact ih (fun y hy => h y (by simp [hy])) x hx c hc

theorem trimLastPiece_ne_nil (l : List (List Char)) (h : l ≠ []) :
    trimLastPiece l ≠ [] := by
  cases l with
  | nil => exact absurd rfl h
  | cons p ps =>
    cases ps with
    | nil => simp [trimLastPiece]
    | cons q qs => simp [trimLastPiece]

theorem trimFirstPiece_ne_nil (l : List (List Char)) (h : l ≠ []) :
    trimFirstPiece l ≠ [] := by
  cases l with
  | nil => exact absurd rfl h
  | cons p ps => simp [trimFirstPiece]

theorem trimLastPiece_cons₂ (p q : List Char) (qs : List (List Char)) :
    trimLastPiece (p :: q :: qs) = p :: trimLastPiece (q :: qs) := rfl

theorem trimLeft_joinComma (pieces : List (List Char)) (hne : pieces ≠ []) :
    trimLeft isTrimSpace (joinComma pieces) = joinComma (trimFirstPiece pieces) := by
  cases pieces with
  | nil => exact absurd rfl hne
  | cons p ps =>
    cases ps with
    | nil => rfl
    | cons q qs =>
      rw [joinComma_cons₂ p (q :: qs) (by simp)]
      by_cases hp : trimLeft isTrimSpace p = []
      · rw [trimLeft_append_all _ p _ ((trimLeft_eq_nil_iff _ p).mp hp),
          trimLeft_cons_neg _ ',' _ (by decide),
          show trimFirstPiece (p :: q :: qs) = trimLeft isTrimSpace p :: q :: qs from rfl, hp,
          joinComma_cons₂ [] (q :: qs) (by simp)]
        rfl
      · rw [trimLeft_append_of_ne_nil _ p _ hp,
          show trimFirstPiece (p :: q :: qs) = trimLeft isTrimSpace p :: q :: qs from rfl,
          joinComma_cons₂ _ (q :: qs) (by simp)]

theorem trimRight_cons_neg (p : Char → Bool) (c : Char) (t : List Char) (h : ¬ p c) :
    trimRight p (c :: t) = c :: trimRight p t := by
  rw [trimRight_cons_eq]
  cases hr : trimRight p t with
  | nil => rw [if_neg h]
  | cons d ds => rfl

theorem trimRight_joinComma (pieces : List (List Char)) :
    trimRight isTrimSpace (joinComma pieces) = joinComma (trimLastPiece pieces) := by
  induction pieces with
  | nil => rfl
  | cons p ps ih =>
    cases ps with
    | nil => rfl
    | cons q qs =>
      have hne : trimRight isTrimSpace (',' :: joinComma (q :: qs)) ≠ [] := by
        rw [trimRight_cons_neg _ ',' _ (by decide)]
        simp
      rw [joinComma_cons₂ p (q :: qs) (by simp),
        trimRight_append_of_ne_nil _ p (',' :: joinComma (q :: qs)) hne,
        trimRight_cons_neg _ ',' _ (by decide), ih,
        trimLastPiece_cons₂,
        joinComma_cons₂ p _ (trimLastPiece_ne_nil _ (by simp))]

/-! ### The permissions parser on joined pieces -/

theorem cleanPerm_trimLeft (x : List Char) :
    cleanPerm (trimLeft isTrimSpace x) = cleanPerm x := by
  unfold cleanPerm
  rw [trimSpace_trimLeft]

theorem cleanPerm_trimRight (x : List Char) :
    cleanPerm (trimRight isTrimSpace x) = cleanPerm x := by
  unfold cleanPerm
  rw [trimSpace_trimRight]

theorem cleanPerm_all_space (x : List Char) (h : ∀ c ∈ x, isTrimSpace c) :
    cleanPerm x = [] := by
  unfold cleanPerm
  rw [(trimSpace_eq_nil_iff x).mpr h]
  rfl

theorem foldl_clean_filterMap (l : List (List Char)) : ∀ acc : List (List Char),
    l.foldl (fun acc perm => if cleanPerm perm ≠ [] then acc ++ [cleanPerm perm] else acc)
        acc =
      acc ++ l.filterMap cleanPerm? := by
  induction l with
  | nil => intro acc; simp
  | cons x xs ih =>
    intro acc
    simp only [List.foldl, List.filterMap_cons]
    by_cases hx : cleanPerm x = []
    · simp only [cleanPerm?, hx, ite_true, ne_eq, not_true_eq_false, ite_false, ih]
    · simp only [cleanPerm?, hx, ite_false, ne_eq, not_false_eq_true, ite_true,
        ih (acc ++ [cleanPerm x]), List.append_assoc, List.singleton_append]

theorem filterMap_trimFirstPiece (l : List (List Char)) :
    (trimFirstPiece l).filterMap cleanPerm? = l.filterMap cleanPerm? := by
  cases l with
  | nil => rfl
  | cons p ps =>
    show ((trimLeft isTrimSpace p) :: ps).filterMap cleanPerm? = _
    rw [List.filterMap_cons, List.filterMap_cons]
    have h : cleanPerm? (trimLeft isTrimSpace p) = cleanPerm? p := by
      unfold cleanPerm?
      rw [cleanPerm_trimLeft]
    rw [h]

theorem filterMap_trimLastPiece (l : List (List Char)) :
    (trimLastPiece l).filterMap cleanPerm? = l.filterMap cleanPerm? := by
  induction l with
  | nil => rfl
  | cons p ps ih =>
    cases ps with
    | nil =>
      show [trimRight isTrimSpace p].filterMap cleanPerm? = _
      rw [List.filterMap_cons, List.filterMap_cons]
      have h : cleanPerm? (trimRight isTrimSpace p) = cleanPerm? p := by
        unfold cleanPerm?
        rw [cleanPerm_trimRight]
      rw [h]
    | cons q qs =>
      rw [trimLastPiece_cons₂, List.filterMap_cons, List.filterMap_cons, ih]

theorem mem_trimFirstPiece_forall (P : Char → Prop) (l : List (List Char))
    (h : ∀ p ∈ l, ∀ c ∈ p, P c) : ∀ p ∈ trimFirstPiece l, ∀ c ∈ p, P c := by
  cases l with
  | nil => simp [trimFirstPiece]
  | cons p ps =>
    intro x hx c hc
    rcases List.mem_cons.mp hx with rfl | hx
    · exact h p (by simp) c (trimLeft_subset _ p c hc)
    · exact h x (by simp [hx]) c hc

theorem mem_trimLastPiece_forall (P : Char → Prop) (l : List (List Char))
    (h : ∀ p ∈ l, ∀ c ∈ p, P c) : ∀ p ∈ trimLastPiece l, ∀ c ∈ p, P c := by
  induction l with
  | nil => simp [trimLastPiece]
  | cons p ps ih =>
    cases ps with
    | nil =>
      intro x hx c hc
      have hx' : x = trimRight isTrimSpace p := by simpa [trimLastPiece] using hx
      subst hx'
      exact h p (by simp) c (trimRight_subset _ p c hc)
    | cons q qs =>
      rw [trimLastPiece_cons₂]
      intro x hx c hc
      rcases List.mem_cons.mp hx with rfl | hx
      · exact h x (by simp) c hc
      · exact ih (fun y hy => h y (by simp [hy])) x hx c hc

/-- `parsePermissionsString` on comma-joined pieces yields exactly the
cleaned non-blank pieces, in order. -/
theorem parse_joinComma (pieces : List (List Char)) (hne : pieces ≠ [])
    (hcomma : ∀ p ∈ pieces, ∀ c ∈ p, c ≠ ',') :
    parsePermissionsString (joinComma pieces) = .ok (pieces.filterMap cleanPerm?) := by
  unfold parsePermissionsString
  by_cases hempty : trimSpace (joinComma pieces) = []
  · rw [if_pos hempty]
    have hall : ∀ c ∈ joinComma pieces, isTrimSpace c := (trimSpace_eq_nil_iff _).mp hempty
    have hclean : ∀ p ∈ pieces, cleanPerm? p = none := fun p hp => by
      unfold cleanPerm?
      rw [cleanPerm_all_space p (joinComma_forall _ pieces hall p hp)]
      rfl
    rw [List.filterMap_eq_nil.mpr hclean]
  · rw [if_neg hempty]
    have h1 : trimSpace (joinComma pieces) = joinComma (trimLastPiece (trimFirstPiece pieces)) := by
      unfold trimSpace trimBy
      rw [trimLeft_joinComma pieces hne, trimRight_joinComma]
    have hcomma' : ∀ p ∈ trimLastPiece (trimFirstPiece pieces), ∀ c ∈ p, c ≠ ',' :=
      mem_trimLastPiece_forall _ _ (mem_trimFirstPiece_forall _ _ hcomma)
    rw [h1, splitOnComma_joinComma _ (trimLastPiece_ne_nil _ (trimFirstPiece_ne_nil _ hne)) hcomma',
      foldl_clean_filterMap, filterMap_trimLastPiece, filterMap_trimFirstPiece]
    rfl

/-! ### Cleaning a quoted element -/

theorem trimRight_last_neg (p : Char → Bool) (u : List Char) (b : Char) (h : ¬ p b) :
    trimRight p (u ++ [b]) = u ++ [b] := by
  have hb : trimRight p [b] = [b] := by simp [trimRight, h]
  rw [trimRight_append_of_ne_nil p u [b] (by rw [hb]; simp), hb]

theorem cleanPerm_quoted (pad1 pad2 e : List Char) (qc : Char)
    (hq : qc = '"' ∨ qc = '\'')
    (h1 : ∀ c ∈ pad1, isTrimSpace c) (h2 : ∀ c ∈ pad2, isTrimSpace c)
    (he : e ≠ []) (heq : ∀ c ∈ e, c ≠ '"' ∧ c ≠ '\'') :
    cleanPerm (pad1 ++ qc :: (e ++ [qc]) ++ pad2) = e := by
  have hqs : ¬ isTrimSpace qc = true := by rcases hq with rfl | rfl <;> decide
  have hts : trimSpace (pad1 ++ qc :: (e ++ [qc]) ++ pad2) = qc :: (e ++ [qc]) := by
    unfold trimSpace trimBy
    rw [show pad1 ++ qc :: (e ++ [qc]) ++ pad2 = pad1 ++ (qc :: (e ++ [qc]) ++ pad2) from by
        simp,
      trimLeft_append_all _ pad1 _ h1,
      show qc :: (e ++ [qc]) ++ pad2 = qc :: ((e ++ [qc]) ++ pad2) from rfl,
      trimLeft_cons_neg _ qc _ hqs,
      show qc :: ((e ++ [qc]) ++ pad2) = (qc :: (e ++ [qc])) ++ pad2 from rfl,
      trimRight_append_all _ _ pad2 h2,
      show qc :: (e ++ [qc]) = (qc :: e) ++ [qc] from rfl,
      trimRight_last_neg _ (qc :: e) qc hqs]
  unfold cleanPerm
  rw [hts]
  rcases hq with rfl | rfl
  · have hdq : trimQuote '"' ('"' :: (e ++ ['"'])) = e := by
      unfold trimQuote trimBy
      rw [trimLeft_cons_pos _ '"' _ (by simp),
        trimLeft_append_of_ne_nil _ e _ (by
          rw [trimLeft_of_all_neg _ e (fun c hc => by simp [(heq c hc).1])]
          exact he),
        trimLeft_of_all_neg _ e (fun c hc => by simp [(heq c hc).1]),
        trimRight_append_all _ e ['"'] (by simp),
        trimRight_of_all_neg _ e (fun c hc => by simp [(heq c hc).1])]
    rw [hdq]
    unfold trimQuote trimBy
    rw [trimLeft_of_all_neg _ e (fun c hc => by simp [(heq c hc).2]),
      trimRight_of_all_neg _ e (fun c hc => by simp [(heq c hc).2])]
  · have hnq : trimQuote '"' ('\'' :: (e ++ ['\''])) = '\'' :: (e ++ ['\'']) := by
      unfold trimQuote trimBy
      rw [trimLeft_cons_neg _ '\'' _ (by simp),
        show '\'' :: (e ++ ['\'']) = ('\'' :: e) ++ ['\''] from rfl,
        trimRight_last_neg _ ('\'' :: e) '\'' (by simp)]
    rw [hnq]
    unfold trimQuote trimBy
    rw [trimLeft_cons_pos _ '\'' _ (by simp),
      trimLeft_append_of_ne_nil _ e _ (by
        rw [trimLeft_of_all_neg _ e (fun c hc => by simp [(heq c hc).2])]
        exact he),
      trimLeft_of_all_neg _ e (fun c hc => by simp [(heq c hc).2]),
      trimRight_append_all _ e ['\''] (by simp),
      trimRight_of_all_neg _ e (fun c hc => by simp [(heq c hc).2])]

/-! ### Comment strippers on slash-free and decoy texts -/

theorem slc_no_slash (s : List Char) (h : ∀ c ∈ s, c ≠ '/') :
    (∀ pending, slcAux (.lineStart pending) s = pending ++ s) ∧
      slcAux .normal s = s := by
  induction s with
  | nil => exact ⟨fun pending => by simp [slcAux], rfl⟩
  | cons c cs ih =>
    have hc : c ≠ '/' := h c (by simp)
    have hcs : ∀ x ∈ cs, x ≠ '/' := fun x hx => h x (by simp [hx])
    have ihcs := ih hcs
    cases cs with
    | nil =>
      refine ⟨fun pending => rfl, ?_⟩
      by_cases hn : c = '\n' <;> simp [slcAux, hn]
    | cons d ds =>
      constructor
      · intro pending
        by_cases hsp : isRegexSpace c
        · rw [show slcAux (.lineStart pending) (c :: d :: ds) =
              slcAux (.lineStart (pending ++ [c])) (d :: ds) from by simp [slcAux, hsp],
            ihcs.1 (pending ++ [c])]
          simp
        · have hnc : ¬ (c = '/' ∧ d = '/') := fun hh => hc hh.1
          rw [show slcAux (.lineStart pending) (c :: d :: ds) =
              pending ++ c :: slcAux .normal (d :: ds) from by simp [slcAux, hsp, hnc],
            ihcs.2]
      · by_cases hn : c = '\n'
        · rw [show slcAux .normal (c :: d :: ds) =
              c :: slcAux (.lineStart []) (d :: ds) from by simp [slcAux, hn],
            ihcs.1 []]
          simp
        · rw [show slcAux .normal (c :: d :: ds) =
              c :: slcAux .normal (d :: ds) from by simp [slcAux, hn],
            ihcs.2]

theorem stripLineComments_no_slash (s : List Char) (h : ∀ c ∈ s, c ≠ '/') :
    stripLineComments s = s := by
  unfold stripLineComments
  rw [(slc_no_slash s h).1 []]
  rfl

theorem sbc_no_slash (s : List Char) (h : ∀ c ∈ s, c ≠ '/') :
    sbcAux none s = s := by
  induction s with
  | nil => rfl
  | cons c cs ih =>
    have hc : c ≠ '/' := h c (by simp)
    cases cs with
    | nil => rfl
    | cons d ds =>
      have hnc : ¬ (c = '/' ∧ d = '*') := fun hh => hc hh.1
      rw [show sbcAux none (c :: d :: ds) = c :: sbcAux none (d :: ds) from by
          simp [sbcAux, hnc],
        ih (fun x hx => h x (by simp [hx]))]

theorem stripBlockComments_no_slash (s : List Char) (h : ∀ c ∈ s, c ≠ '/') :
    stripBlockComments s = s := sbc_no_slash s h

theorem slc_entry (pending rest : List Char) :
    slcAux (.lineStart pending) ('/' :: '/' :: rest) = slcAux .comment rest := by
  simp [slcAux, show isRegexSpace '/' = false from rfl]

theorem slc_comment_drop (dcy : List Char) (h : ∀ c ∈ dcy, c ≠ '\n') :
    ∀ rest, slcAux .comment (dcy ++ '\n' :: rest) =
      '\n' :: slcAux (.lineStart []) rest := by
  induction dcy with
  | nil => intro rest; simp [slcAux]
  | cons c cs ih =>
    intro rest
    have hc : c ≠ '\n' := h c (by simp)
    rw [List.cons_append,
      show slcAux .comment (c :: (cs ++ '\n' :: rest)) =
        slcAux .comment (cs ++ '\n' :: rest) from by simp [slcAux, hc],
      ih (fun x hx => h x (by simp [hx])) rest]

theorem slc_normal_through (u : List Char) (hu : ∀ c ∈ u, c ≠ '\n') :
    ∀ rest, slcAux .normal (u ++ '\n' :: rest) =
      u ++ '\n' :: slcAux (.lineStart []) rest := by
  induction u with
  | nil => intro rest; simp [slcAux]
  | cons c cs ih =>
    intro rest
    have hc : c ≠ '\n' := hu c (by simp)
    cases hcase : cs ++ '\n' :: rest with
    | nil => exact absurd hcase (by simp)
    | cons d ds =>
      rw [List.cons_append, hcase,
        show slcAux .normal (c :: d :: ds) = c :: slcAux .normal (d :: ds) from by
          simp [slcAux, hc],
        ← hcase, ih (fun x hx => hu x (by simp [hx])) rest]
      simp

theorem sbc_entry (rest : List Char) :
    sbcAux none ('/' :: '*' :: rest) = sbcAux (some ['/', '*']) rest := by
  simp [sbcAux]

theorem sbc_drop (body : List Char) (h : ∀ c ∈ body, c ≠ '*') :
    ∀ (pending rest : List Char),
      sbcAux (some pending) (body ++ '*' :: '/' :: rest) = sbcAux none rest := by
  induction body with
  | nil =>
    intro pending rest
    simp [sbcAux]
  | cons b bs ih =>
    intro pending rest
    have hb : b ≠ '*' := h b (by simp)
    cases bs with
    | nil =>
      rw [show ([b] ++ '*' :: '/' :: rest) = b :: '*' :: '/' :: rest from rfl,
        show sbcAux (some pending) (b :: '*' :: '/' :: rest) =
          sbcAux (some (pending ++ [b])) ('*' :: '/' :: rest) from by
            simp [sbcAux, hb],
        show sbcAux (some (pending ++ [b])) ('*' :: '/' :: rest) = sbcAux none rest from by
          simp [sbcAux]]
    | cons b2 bs2 =>
      have hcond : ¬ (b = '*' ∧ b2 = '/') := fun hh => hb hh.1
      have step := ih (fun x hx => h x (by simp [hx])) (pending ++ [b]) rest
      rw [List.cons_append] at step
      rw [List.cons_append, List.cons_append,
        show sbcAux (some pending) (b :: b2 :: (bs2 ++ '*' :: '/' :: rest)) =
          sbcAux (some (pending ++ [b])) (b2 :: (bs2 ++ '*' :: '/' :: rest)) from by
            simp [sbcAux, hcond]]
      exact step

/-! ### The field matchers on rendered text -/

theorem matchLit_self (l : List Char) : ∀ rest, matchLit l (l ++ rest) = some rest := by
  induction l with
  | nil => intro rest; rfl
  | cons c cs ih => intro rest; simp [matchLit, ih rest]

theorem matchStar_cons_neg (p : Char → Bool) (c : Char) (cs : List Char) (h : ¬ p c) :
    matchStar p (c :: cs) = c :: cs := by
  simp [matchStar, h]

theorem matchStar_append_all (p : Char → Bool) (w : List Char) (hw : ∀ c ∈ w, p c)
    (d : Char) (hd : ¬ p d) (rest : List Char) :
    matchStar p (w ++ d :: rest) = d :: rest := by
  induction w with
  | nil => exact matchStar_cons_neg p d rest hd
  | cons c cs ih =>
    rw [List.cons_append,
      show matchStar p (c :: (cs ++ d :: rest)) = matchStar p (cs ++ d :: rest) from by
        simp [matchStar, hw c (by simp)],
      ih (fun x hx => hw x (by simp [hx]))]

theorem lazyCaptureUpTo_exact (cap : List Char)
    (h : ∀ c ∈ cap, c ≠ ']' ∧ c ≠ '\n') : ∀ rest,
    lazyCaptureUpTo ']' (cap ++ ']' :: rest) = some (cap, rest) := by
  induction cap with
  | nil => intro rest; simp [lazyCaptureUpTo]
  | cons c cs ih =>
    intro rest
    have hc := h c (by simp)
    rw [List.cons_append]
    simp only [lazyCaptureUpTo, hc.1, hc.2, if_false,
      ih (fun x hx => h x (by simp [hx])) rest]
    simp [hc.1, hc.2]

theorem matchPermissionsAt_render (w1 w2 interior rest : List Char)
    (hw1 : ∀ c ∈ w1, isRegexSpace c) (hw2 : ∀ c ∈ w2, isRegexSpace c)
    (hint : ∀ c ∈ interior, c ≠ ']' ∧ c ≠ '\n') :
    matchPermissionsAt
      ("permissions".toList ++ (w1 ++ ':' :: (w2 ++ '[' :: (interior ++ ']' :: rest)))) =
      some interior := by
  unfold matchPermissionsAt
  rw [matchLit_self ("permissions".toList) _]
  simp only [Option.bind_eq_bind, Option.some_bind]
  rw [matchStar_append_all _ w1 hw1 ':' (by decide) _,
    show matchLit [':'] (':' :: (w2 ++ '[' :: (interior ++ ']' :: rest))) =
      some (w2 ++ '[' :: (interior ++ ']' :: rest)) from by simp [matchLit]]
  simp only [Option.some_bind]
  rw [matchStar_append_all _ w2 hw2 '[' (by decide) _,
    show matchLit ['['] ('[' :: (interior ++ ']' :: rest)) =
      some (interior ++ ']' :: rest) from by simp [matchLit]]
  simp only [Option.some_bind]
  rw [lazyCaptureUpTo_exact interior hint rest]
  rfl

theorem matchPermissionsAt_head_ne (c : Char) (t : List Char) (h : c ≠ 'p') :
    matchPermissionsAt (c :: t) = none := by
  unfold matchPermissionsAt
  rw [show ("permissions".toList) = 'p' :: ("ermissions".toList) from rfl,
    show matchLit ('p' :: ("ermissions".toList)) (c :: t) = none from by simp [matchLit, h]]
  rfl

theorem matchNoAuthAt_head_ne (c : Char) (t : List Char) (h : c ≠ 'n') :
    matchNoAuthAt (c :: t) = none := by
  unfold matchNoAuthAt
  rw [show ("no_auth_required".toList) = 'n' :: ("o_auth_required".toList) from rfl,
    show matchLit ('n' :: ("o_auth_required".toList)) (c :: t) = none from by
      simp [matchLit, h]]
  rfl

theorem findFirst_head_some {α : Type} (m : List Char → Option α) (s : List Char) (a : α)
    (h : m s = some a) : findFirst m s = some a := by
  cases s with
  | nil => simpa [findFirst] using h
  | cons c cs => simp [findFirst, h]

theorem findFirst_append_none {α : Type} (m : List Char → Option α) (pre s : List Char)
    (h : ∀ (c : Char) (t : List Char), c ∈ pre → m (c :: t) = none) :
    findFirst m (pre ++ s) = findFirst m s := by
  induction pre with
  | nil => rfl
  | cons c cs ih =>
    rw [List.cons_append,
      show findFirst m (c :: (cs ++ s)) =
        match m (c :: (cs ++ s)) with
        | some a => some a
        | none => findFirst m (cs ++ s) from rfl,
      h c _ (by simp)]
    exact ih (fun c t hc => h c t (by simp [hc]))

/-! ### Character facts -/

theorem safeChar_spec (c : Char) (h : safeChar c) :
    c ≠ '\n' ∧ c ≠ '"' ∧ c ≠ '\'' ∧ c ≠ ',' ∧ c ≠ ']' ∧ c ≠ '/' ∧ c ≠ '*' := by
  simpa [safeChar, and_assoc] using h

theorem isRegexSpace_ne (c : Char) (h : isRegexSpace c) :
    c ≠ '/' ∧ c ≠ 'p' ∧ c ≠ ':' ∧ c ≠ '[' := by
  have h' : c = ' ' ∨ c = '\t' ∨ c = '\n' ∨ c = '\x0c' ∨ c = '\r' := by
    simpa [isRegexSpace, or_assoc] using h
  rcases h' with rfl | rfl | rfl | rfl | rfl <;> exact ⟨by decide, by decide, by decide, by decide⟩

theorem isTrimSpace_ne (c : Char) (h : isTrimSpace c) :
    c ≠ '/' ∧ c ≠ ']' ∧ c ≠ ',' ∧ c ≠ '"' ∧ c ≠ '\'' := by
  have h' : c = ' ' ∨ c = '\t' ∨ c = '\n' ∨ c = '\x0b' ∨ c = '\x0c' ∨ c = '\r' := by
    simpa [isTrimSpace, or_assoc] using h
  rcases h' with rfl | rfl | rfl | rfl | rfl | rfl <;>
    exact ⟨by decide, by decide, by decide, by decide, by decide⟩

/-! ### Round-trip through the serialization format -/

theorem mem_joinComma_pieces (pieces : List (List Char)) (c : Char)
    (hc : c ∈ joinComma pieces) : c = ',' ∨ ∃ p ∈ pieces, c ∈ p := by
  induction pieces with
  | nil => simp [joinComma] at hc
  | cons p ps ih =>
    cases ps with
    | nil => exact Or.inr ⟨p, by simp, hc⟩
    | cons q qs =>
      rw [joinComma_cons₂ _ _ (by simp)] at hc
      rcases List.mem_append.mp hc with hc | hc
      · exact Or.inr ⟨p, by simp, hc⟩
      · rcases List.mem_cons.mp hc with rfl | hc
        · exact Or.inl rfl
        · rcases ih hc with h | ⟨x, hx, hcx⟩
          · exact Or.inl h
          · exact Or.inr ⟨x, by simp [hx], hcx⟩

theorem mem_quotedPiece (p : List Char) (c : Char) (hc : c ∈ quotedPiece p) :
    c = '"' ∨ c ∈ p := by
  simp only [quotedPiece, List.mem_cons, List.mem_append] at hc
  rcases hc with rfl | hc | hc
  · exact Or.inl rfl
  · exact Or.inr hc
  · simp at hc
    exact Or.inl hc

theorem renderPermList_eq_joinComma (perms : List (List Char)) :
    renderPermList perms = joinComma (c7pieces perms) := by
  induction perms with
  | nil => rfl
  | cons p ps ih =>
    cases ps with
    | nil => rfl
    | cons q qs =>
      have key : joinComma (c7pieces (p :: q :: qs)) =
          quotedPiece p ++ ',' :: joinComma ((q :: qs).map (fun r => ' ' :: quotedPiece r)) := by
        rw [show c7pieces (p :: q :: qs) =
            quotedPiece p :: (q :: qs).map (fun r => ' ' :: quotedPiece r) from rfl,
          joinComma_cons₂ _ _ (by simp)]
      have tail : joinComma ((q :: qs).map (fun r => ' ' :: quotedPiece r)) =
          ' ' :: renderPermList (q :: qs) := by
        clear key ih
        induction qs generalizing q with
        | nil => rfl
        | cons r rs ih2 =>
          rw [show (q :: r :: rs).map (fun x => ' ' :: quotedPiece x) =
              (' ' :: quotedPiece q) :: (r :: rs).map (fun x => ' ' :: quotedPiece x) from rfl,
            joinComma_cons₂ _ _ (by simp), ih2 r,
            show renderPermList (q :: r :: rs) =
              quotedPiece q ++ ',' :: ' ' :: renderPermList (r :: rs) from rfl]
          simp
      rw [key, tail,
        show renderPermList (p :: q :: qs) =
          quotedPiece p ++ ',' :: ' ' :: renderPermList (q :: qs) from rfl]

theorem mem_renderPermList (perms : List (List Char)) (c : Char)
    (hc : c ∈ renderPermList perms) :
    c = '"' ∨ c = ',' ∨ c = ' ' ∨ ∃ p ∈ perms, c ∈ p := by
  rw [renderPermList_eq_joinComma] at hc
  rcases mem_joinComma_pieces _ c hc with rfl | ⟨x, hx, hcx⟩
  · exact Or.inr (Or.inl rfl)
  · cases perms with
    | nil => simp [c7pieces] at hx
    | cons p ps =>
      rcases List.mem_cons.mp hx with rfl | hx
      · rcases mem_quotedPiece p c hcx with rfl | hcm
        · exact Or.inl rfl
        · exact Or.inr (Or.inr (Or.inr ⟨p, by simp, hcm⟩))
      · rcases List.mem_map.mp hx with ⟨q, hq, rfl⟩
        rcases List.mem_cons.mp hcx with rfl | hcx
        · exact Or.inr (Or.inr (Or.inl rfl))
        · rcases mem_quotedPiece q c hcx with rfl | hcm
          · exact Or.inl rfl
          · exact Or.inr (Or.inr (Or.inr ⟨q, by simp [hq], hcm⟩))

theorem cleanPerm_quotedPiece (p : List Char) (hne : p ≠ [])
    (hs : ∀ c ∈ p, safeChar c) : cleanPerm? (quotedPiece p) = some p := by
  have h : cleanPerm (quotedPiece p) = p := by
    have := cleanPerm_quoted [] [] p '"' (Or.inl rfl) (by simp) (by simp) hne
      (fun c hc => ⟨(safeChar_spec c (hs c hc)).2.1, (safeChar_spec c (hs c hc)).2.2.1⟩)
    simpa [quotedPiece] using this
  unfold cleanPerm?
  rw [h, if_neg hne]

theorem cleanPerm_spaceQuotedPiece (p : List Char) (hne : p ≠ [])
    (hs : ∀ c ∈ p, safeChar c) : cleanPerm? (' ' :: quotedPiece p) = some p := by
  have h : cleanPerm (' ' :: quotedPiece p) = p := by
    have := cleanPerm_quoted [' '] [] p '"' (Or.inl rfl) (by simp; rfl) (by simp) hne
      (fun c hc => ⟨(safeChar_spec c (hs c hc)).2.1, (safeChar_spec c (hs c hc)).2.2.1⟩)
    simpa [quotedPiece] using this
  unfold cleanPerm?
  rw [h, if_neg hne]

theorem filterMap_c7tail (ps : List (List Char))
    (h : ∀ p ∈ ps, p ≠ [] ∧ ∀ c ∈ p, safeChar c) :
    (ps.map (fun q => ' ' :: quotedPiece q)).filterMap cleanPerm? = ps := by
  induction ps with
  | nil => rfl
  | cons p ps ih =>
    rw [List.map_cons, List.filterMap_cons,
      cleanPerm_spaceQuotedPiece p (h p (by simp)).1 (h p (by simp)).2,
      ih (fun x hx => h x (by simp [hx]))]

theorem parse_renderPermList (perms : List (List Char))
    (h : ∀ p ∈ perms, p ≠ [] ∧ ∀ c ∈ p, safeChar c) :
    parsePermissionsString (renderPermList perms) = .ok perms := by
  cases perms with
  | nil => rfl
  | cons p ps =>
    rw [renderPermList_eq_joinComma]
    have hcomma : ∀ x ∈ c7pieces (p :: ps), ∀ c ∈ x, c ≠ ',' := by
      intro x hx c hc
      rcases List.mem_cons.mp hx with rfl | hx
      · rcases List.mem_cons.mp hc with rfl | hc
        · decide
        · rcases List.mem_append.mp hc with hc | hc
          · exact (safeChar_spec c ((h p (by simp)).2 c hc)).2.2.2.1
          · simp at hc; subst hc; decide
      · rcases List.mem_map.mp hx with ⟨q, hq, rfl⟩
        rcases List.mem_cons.mp hc with rfl | hc
        · decide
        · rcases List.mem_cons.mp hc with rfl | hc
          · decide
          · rcases List.mem_append.mp hc with hc | hc
            · exact (safeChar_spec c ((h q (by simp [hq])).2 c hc)).2.2.2.1
            · simp at hc; subst hc; decide
    rw [parse_joinComma (c7pieces (p :: ps)) (by simp [c7pieces]) hcomma]
    rw [show c7pieces (p :: ps) = quotedPiece p :: ps.map (fun q => ' ' :: quotedPiece q)
        from rfl,
      List.filterMap_cons, cleanPerm_quotedPiece p (h p (by simp)).1 (h p (by simp)).2,
      filterMap_c7tail ps (fun x hx => h x (by simp [hx]))]

theorem extractFields_render_core (perms : List (List Char)) (b : Bool) (pre : List Char)
    (hpre : ∀ c ∈ pre, c ≠ '/' ∧ c ≠ 'p')
    (hperms : ∀ p ∈ perms, p ≠ [] ∧ ∀ c ∈ p, safeChar c)
    (hno : matchNoAuthAt
      (pre ++ ("permissions".toList ++
        ([] ++ ':' :: ([' '] ++ '[' :: (renderPermList perms ++ ']' :: []))))) = some b) :
    extractFields
      (pre ++ ("permissions".toList ++
        ([] ++ ':' :: ([' '] ++ '[' :: (renderPermList perms ++ ']' :: []))))) =
      .ok (perms, b) := by
  have hintchars : ∀ c ∈ renderPermList perms, (c ≠ ']' ∧ c ≠ '\n') ∧ c ≠ '/' := by
    intro c hc
    rcases mem_renderPermList perms c hc with rfl | rfl | rfl | ⟨p, hp, hcp⟩
    · exact ⟨⟨by decide, by decide⟩, by decide⟩
    · exact ⟨⟨by decide, by decide⟩, by decide⟩
    · exact ⟨⟨by decide, by decide⟩, by decide⟩
    · have hs := safeChar_spec c ((hperms p hp).2 c hcp)
      exact ⟨⟨hs.2.2.2.2.1, hs.1⟩, hs.2.2.2.2.2.1⟩
  have hns : ∀ c ∈ pre ++ ("permissions".toList ++
      ([] ++ ':' :: ([' '] ++ '[' :: (renderPermList perms ++ ']' :: [])))), c ≠ '/' := by
    intro c hc
    have hlit : ∀ x ∈ ("permissions".toList), x ≠ '/' := by decide
    rcases List.mem_append.mp hc with hc | hc
    · exact (hpre c hc).1
    · rcases List.mem_append.mp hc with hc | hc
      · exact hlit c hc
      · simp only [List.nil_append] at hc
        rcases List.mem_cons.mp hc with rfl | hc
        · decide
        · rcases List.mem_append.mp hc with hc | hc
          · simp at hc
            subst hc
            decide
          · rcases List.mem_cons.mp hc with rfl | hc
            · decide
            · rcases List.mem_append.mp hc with hc | hc
              · exact (hintchars c hc).2
              · simp at hc
                subst hc
                decide
  have h1 : stripLineComments (pre ++ ("permissions".toList ++
      ([] ++ ':' :: ([' '] ++ '[' :: (renderPermList perms ++ ']' :: []))))) = _ :=
    stripLineComments_no_slash _ hns
  have h2 : stripBlockComments (pre ++ ("permissions".toList ++
      ([] ++ ':' :: ([' '] ++ '[' :: (renderPermList perms ++ ']' :: []))))) = _ :=
    stripBlockComments_no_slash _ hns
  have hmatch : matchPermissionsAt ("permissions".toList ++
      ([] ++ ':' :: ([' '] ++ '[' :: (renderPermList perms ++ ']' :: [])))) =
      some (renderPermList perms) :=
    matchPermissionsAt_render [] [' '] (renderPermList perms) []
      (by simp) (by intro c hc; simp at hc; subst hc; rfl)
      (fun c hc => (hintchars c hc).1)
  have hff : findFirst matchPermissionsAt (pre ++ ("permissions".toList ++
      ([] ++ ':' :: ([' '] ++ '[' :: (renderPermList perms ++ ']' :: []))))) =
      some (renderPermList perms) := by
    rw [findFirst_append_none _ pre _
      (fun c t hc => matchPermissionsAt_head_ne c t (hpre c hc).2)]
    exact findFirst_head_some _ _ _ hmatch
  have hffno : findFirst matchNoAuthAt (pre ++ ("permissions".toList ++
      ([] ++ ':' :: ([' '] ++ '[' :: (renderPermList perms ++ ']' :: []))))) = some b :=
    findFirst_head_some _ _ _ hno
  simp only [extractFields, h1, h2, hff, hffno, parse_renderPermList perms hperms]

/-- C7 (amended): for any `(permissions, noAuthRequired)` pair whose
permission strings are non-empty and contain no character the field parsers
treat specially (newline, quotes, comma, closing bracket, slash, asterisk),
serializing the pair into an authz block in the field parsers' own format
and running the field parsers on that text reproduces exactly the same
pair. -/
theorem c7_roundTrip (perms : List (List Char)) (noAuth : Bool)
    (h : ∀ p ∈ perms, p ≠ [] ∧ ∀ c ∈ p, safeChar c) :
    extractFields (renderAuthzBlock perms noAuth) = .ok (perms, noAuth) := by
  cases noAuth with
  | true =>
    rw [show renderAuthzBlock perms true = ("no_auth_required: true\n".toList) ++
        ("permissions".toList ++
          ([] ++ ':' :: ([' '] ++ '[' :: (renderPermList perms ++ ']' :: [])))) from rfl]
    exact extractFields_render_core perms true _ (by decide) h rfl
  | false =>
    rw [show renderAuthzBlock perms false = ("no_auth_required: false\n".toList) ++
        ("permissions".toList ++
          ([] ++ ':' :: ([' '] ++ '[' :: (renderPermList perms ++ ']' :: [])))) from rfl]
    exact extractFields_render_core perms false _ (by decide) h rfl

/-- Counterexample to C7 as stated: the pair `(["a,b"], false)` does not
round-trip — the comma inside the single permission string splits it, so
extraction returns `(["a", "b"], false)` instead. -/
theorem c7_counterexample :
    extractFields (renderAuthzBlock [("a,b".toList)] false) =
      .ok ([("a".toList), ("b".toList)], false) ∧
    ¬ extractFields (renderAuthzBlock [("a,b".toList)] false) =
      .ok ([("a,b".toList)], false) := by
  exact ⟨by decide, by decide⟩

/-- Witness for C7: a two-element pair with safe characters round-trips. -/
theorem c7_roundTrip_witness :
    extractFields (renderAuthzBlock [("read:all".toList), ("b c".toList)] true) =
      .ok ([("read:all".toList), ("b c".toList)], true) :=
  c7_roundTrip [("read:all".toList), ("b c".toList)] true (by decide)

/-! ### White-space tolerance of the permissions declaration -/

theorem mem_renderEntry (en : PermEntry) (c : Char) (hc : c ∈ renderEntry en) :
    c ∈ en.pre ∨ c = qchar en.dq ∨ c ∈ en.str ∨ c ∈ en.post := by
  simp only [renderEntry, List.mem_append, List.mem_cons] at hc
  rcases hc with (hc | rfl | hc | rfl | hc) | hc
  · exact Or.inl hc
  · exact Or.inr (Or.inl rfl)
  · exact Or.inr (Or.inr (Or.inl hc))
  · exact Or.inr (Or.inl rfl)
  · cases hc
  · exact Or.inr (Or.inr (Or.inr hc))

theorem qchar_ne (dq : Bool) : qchar dq ≠ ',' ∧ qchar dq ≠ ']' ∧ qchar dq ≠ '\n' ∧
    qchar dq ≠ '/' := by
  cases dq <;> exact ⟨by decide, by decide, by decide, by decide⟩

theorem cleanPerm_renderEntry (en : PermEntry)
    (hpre : ∀ c ∈ en.pre, isTrimSpace c ∧ c ≠ '\n')
    (hpost : ∀ c ∈ en.post, isTrimSpace c ∧ c ≠ '\n')
    (hne : en.str ≠ []) (hs : ∀ c ∈ en.str, safeChar c) :
    cleanPerm? (renderEntry en) = some en.str := by
  have hq : qchar en.dq = '"' ∨ qchar en.dq = '\'' := by
    cases en.dq
    · exact Or.inr rfl
    · exact Or.inl rfl
  have h : cleanPerm (renderEntry en) = en.str :=
    cleanPerm_quoted en.pre en.post en.str (qchar en.dq) hq
      (fun c hc => (hpre c hc).1) (fun c hc => (hpost c hc).1) hne
      (fun c hc => ⟨(safeChar_spec c (hs c hc)).2.1, (safeChar_spec c (hs c hc)).2.2.1⟩)
  unfold cleanPerm?
  rw [h, if_neg hne]

theorem filterMap_renderEntry (ens : List PermEntry)
    (h : ∀ en ∈ ens,
      (∀ c ∈ en.pre, isTrimSpace c ∧ c ≠ '\n') ∧
      (∀ c ∈ en.post, isTrimSpace c ∧ c ≠ '\n') ∧
      en.str ≠ [] ∧ (∀ c ∈ en.str, safeChar c)) :
    (ens.map renderEntry).filterMap cleanPerm? = ens.map PermEntry.str := by
  induction ens with
  | nil => rfl
  | cons en ens ih =>
    have hen := h en (by simp)
    rw [List.map_cons, List.filterMap_cons,
      cleanPerm_renderEntry en hen.1 hen.2.1 hen.2.2.1 hen.2.2.2,
      List.map_cons, ih (fun x hx => h x (by simp [hx]))]

/-- C2 (amended): for every method whose authz block declares a permissions
list, the emitted rule's permissions equal exactly the declared elements in
declaration order, with quotes removed (single or double), for arbitrary
white space around the colon and before the opening bracket, and arbitrary
non-newline white space around each quoted element within the brackets
(elements drawn from characters the parsers do not treat specially). -/
theorem c2_whitespaceTolerantPermissions (w1 w2 : List Char) (ens : List PermEntry)
    (hw1 : ∀ c ∈ w1, isRegexSpace c) (hw2 : ∀ c ∈ w2, isRegexSpace c)
    (hens : ∀ en ∈ ens,
      (∀ c ∈ en.pre, isTrimSpace c ∧ c ≠ '\n') ∧
      (∀ c ∈ en.post, isTrimSpace c ∧ c ≠ '\n') ∧
      en.str ≠ [] ∧ (∀ c ∈ en.str, safeChar c)) :
    (extractFields (renderPermsDecl w1 w2 ens)).map Prod.fst =
      .ok (ens.map PermEntry.str) := by
  have hJ : ∀ c ∈ joinComma (ens.map renderEntry), c ≠ ']' ∧ c ≠ '\n' ∧ c ≠ '/' := by
    intro c hc
    rcases mem_joinComma_pieces _ c hc with rfl | ⟨x, hx, hcx⟩
    · exact ⟨by decide, by decide, by decide⟩
    · rcases List.mem_map.mp hx with ⟨en, hen, rfl⟩
      have hconds := hens en hen
      rcases mem_renderEntry en c hcx with hc | rfl | hc | hc
      · have ht := hconds.1 c hc
        exact ⟨(isTrimSpace_ne c ht.1).2.1, ht.2, (isTrimSpace_ne c ht.1).1⟩
      · have hqn := qchar_ne en.dq
        exact ⟨hqn.2.1, hqn.2.2.1, hqn.2.2.2⟩
      · have hs := safeChar_spec c (hconds.2.2.2 c hc)
        exact ⟨hs.2.2.2.2.1, hs.1, hs.2.2.2.2.2.1⟩
      · have ht := hconds.2.1 c hc
        exact ⟨(isTrimSpace_ne c ht.1).2.1, ht.2, (isTrimSpace_ne c ht.1).1⟩
  have hshape : renderPermsDecl w1 w2 ens =
      "permissions".toList ++
        (w1 ++ ':' :: (w2 ++ '[' :: (joinComma (ens.map renderEntry) ++ ']' :: []))) := by
    simp [renderPermsDecl]
  have hns : ∀ c ∈ "permissions".toList ++
      (w1 ++ ':' :: (w2 ++ '[' :: (joinComma (ens.map renderEntry) ++ ']' :: []))), c ≠ '/' := by
    have hlit : ∀ x ∈ ("permissions".toList), x ≠ '/' := by decide
    intro c hc
    rcases List.mem_append.mp hc with hc | hc
    · exact hlit c hc
    · rcases List.mem_append.mp hc with hc | hc
      · exact (isRegexSpace_ne c (hw1 c hc)).1
      · rcases List.mem_cons.mp hc with rfl | hc
        · decide
        · rcases List.mem_append.mp hc with hc | hc
          · exact (isRegexSpace_ne c (hw2 c hc)).1
          · rcases List.mem_cons.mp hc with rfl | hc
            · decide
            · rcases List.mem_append.mp hc with hc | hc
              · exact (hJ c hc).2.2
              · simp at hc
                subst hc
                decide
  have h1 := stripLineComments_no_slash _ hns
  have h2 := stripBlockComments_no_slash _ hns
  have hmatch : matchPermissionsAt ("permissions".toList ++
      (w1 ++ ':' :: (w2 ++ '[' :: (joinComma (ens.map renderEntry) ++ ']' :: []))))
      = some (joinComma (ens.map renderEntry)) :=
    matchPermissionsAt_render w1 w2 _ [] hw1 hw2
      (fun c hc => ⟨(hJ c hc).1, (hJ c hc).2.1⟩)
  have hff := findFirst_head_some _ _ _ hmatch
  have hparse : parsePermissionsString (joinComma (ens.map renderEntry)) =
      .ok (ens.map PermEntry.str) := by
    cases ens with
    | nil => rfl
    | cons en ens' =>
      have hcomma : ∀ x ∈ (en :: ens').map renderEntry, ∀ c ∈ x, c ≠ ',' := by
        intro x hx c hc
        rcases List.mem_map.mp hx with ⟨e2, he2, rfl⟩
        have hconds := hens e2 he2
        rcases mem_renderEntry e2 c hc with hc | rfl | hc | hc
        · exact (isTrimSpace_ne c (hconds.1 c hc).1).2.2.1
        · exact (qchar_ne e2.dq).1
        · exact (safeChar_spec c (hconds.2.2.2 c hc)).2.2.2.1
        · exact (isTrimSpace_ne c (hconds.2.1 c hc).1).2.2.1
      rw [parse_joinComma _ (by simp) hcomma, filterMap_renderEntry _ hens]
  rw [hshape]
  simp only [extractFields, h1, h2, hff, hparse]
  rfl

/-- Counterexample to C2 as stated: a newline inside the brackets (white
space around a list element) defeats the permissions regex, whose lazy group
cannot cross a line break, so the emitted rule has empty permissions instead
of the declared `["x"]`. -/
theorem c2_counterexample :
    parseMethod
      ⟨("M".toList),
       some ("rpc M(A) returns (B) \x7b option (proto.v1.authz) = \x7b permissions: [\n\"x\"\n] \x7d \x7d".toList),
       some [⟨("post".toList), some ("/t".toList)⟩]⟩ =
      .ok ⟨("/t".toList), ("POST".toList), [], false⟩ ∧
    ([] : List (List Char)) ≠ [("x".toList)] :=
  ⟨by decide, by decide⟩

/-- Witness for C2: spaces and a tab around the colon and elements, a
newline inside the colon white space, and mixed quote styles still yield
exactly the declared elements in order. -/
theorem c2_whitespaceTolerantPermissions_witness :
    (extractFields (renderPermsDecl [' '] ['\n', '\t']
      [⟨[' '], ("a".toList), [], true⟩,
       ⟨[' ', '\t'], ("b".toList), [' '], false⟩])).map Prod.fst =
      .ok [("a".toList), ("b".toList)] :=
  c2_whitespaceTolerantPermissions [' '] ['\n', '\t']
    [⟨[' '], ("a".toList), [], true⟩, ⟨[' ', '\t'], ("b".toList), [' '], false⟩]
    (by decide) (by decide) (by decide)

/-! ### Inertness of whole-line and block comments in the authz body -/

/-- C5 (amended): a whole-line comment (a line whose first characters are
`//`) preceding the real declaration is removed before field extraction, and
so is a block comment, whatever decoy text they carry; extraction yields
exactly the really declared permissions.  (Trailing same-line comments after
code are not removed — see the counterexample.) -/
theorem c5_commentInertness :
    (∀ dcy : List Char, (∀ c ∈ dcy, c ≠ '\n') →
      extractFields
        ('/' :: '/' :: (dcy ++ '\n' :: ("permissions: [\"real\"]".toList))) =
        .ok ([("real".toList)], false)) ∧
    (∀ dcy : List Char, (∀ c ∈ dcy, c ≠ '\n' ∧ c ≠ '*') →
      extractFields
        ('/' :: '*' :: (dcy ++ '*' :: '/' :: '\n' :: ("permissions: [\"real\"]".toList))) =
        .ok ([("real".toList)], false)) := by
  constructor
  · intro dcy h
    have h1 : stripLineComments
        ('/' :: '/' :: (dcy ++ '\n' :: ("permissions: [\"real\"]".toList))) =
        '\n' :: ("permissions: [\"real\"]".toList) := by
      unfold stripLineComments
      rw [slc_entry, slc_comment_drop dcy h]
      congr 1
    have h2 : stripBlockComments ('\n' :: ("permissions: [\"real\"]".toList)) =
        '\n' :: ("permissions: [\"real\"]".toList) := by decide
    simp only [extractFields, h1, h2]
    decide
  · intro dcy h
    have hu : ∀ c ∈ '*' :: dcy ++ ['*', '/'], c ≠ '\n' := by
      intro c hc
      rcases List.mem_cons.mp hc with rfl | hc
      · decide
      · rcases List.mem_append.mp hc with hc | hc
        · exact (h c hc).1
        · rcases List.mem_cons.mp hc with rfl | hc
          · decide
          · simp at hc
            subst hc
            decide
    have h1 : stripLineComments
        ('/' :: '*' :: (dcy ++ '*' :: '/' :: '\n' :: ("permissions: [\"real\"]".toList))) =
        '/' :: '*' :: (dcy ++ '*' :: '/' :: '\n' :: ("permissions: [\"real\"]".toList)) := by
      unfold stripLineComments
      rw [show slcAux (SLCMode.lineStart [])
          ('/' :: '*' :: (dcy ++ '*' :: '/' :: '\n' :: ("permissions: [\"real\"]".toList))) =
          '/' :: slcAux SLCMode.normal
            ('*' :: (dcy ++ '*' :: '/' :: '\n' :: ("permissions: [\"real\"]".toList))) from by
        simp [slcAux, show isRegexSpace '/' = false from rfl]]
      rw [show '*' :: (dcy ++ '*' :: '/' :: '\n' :: ("permissions: [\"real\"]".toList)) =
          ('*' :: dcy ++ ['*', '/']) ++ '\n' :: ("permissions: [\"real\"]".toList) from by simp]
      rw [slc_normal_through _ hu,
        show slcAux (SLCMode.lineStart []) ("permissions: [\"real\"]".toList) =
          ("permissions: [\"real\"]".toList) from by decide]
    have h2 : stripBlockComments
        ('/' :: '*' :: (dcy ++ '*' :: '/' :: '\n' :: ("permissions: [\"real\"]".toList))) =
        '\n' :: ("permissions: [\"real\"]".toList) := by
      unfold stripBlockComments
      rw [sbc_entry, sbc_drop dcy (fun c hc => (h c hc).2)]
      decide
    simp only [extractFields, h1, h2]
    decide

/-- Counterexample to C5 as stated: `permissions: ["fake"]` occurring only
inside a trailing line comment (after code on the same line) is not
stripped — it changes the extracted permissions from `[]` to `["fake"]`. -/
theorem c5_counterexample :
    extractFields ("x: 1 // permissions: [\"fake\"]".toList) =
      .ok ([("fake".toList)], false) ∧
    extractFields ("x: 1".toList) = .ok ([], false) :=
  ⟨by decide, by decide⟩

/-- Witness for C5: the decoy `// permissions: ["fake"]` line before the
real declaration yields exactly `["real"]`, and so does a decoy block
comment carrying `no_auth_required: true`. -/
theorem c5_commentInertness_witness :
    extractFields ('/' :: '/' :: ((" permissions: [\"fake\"]".toList) ++
      '\n' :: ("permissions: [\"real\"]".toList))) = .ok ([("real".toList)], false) ∧
    extractFields ('/' :: '*' :: ((" no_auth_required: true ".toList) ++
      '*' :: '/' :: '\n' :: ("permissions: [\"real\"]".toList))) =
      .ok ([("real".toList)], false) :=
  ⟨c5_commentInertness.1 _ (by decide), c5_commentInertness.2 _ (by decide)⟩

end Authz
